import Mathlib

/-!
Verification of the snippet-extension tool-calling core.

Strings from the TypeScript sources are modelled as `List Char`; each
JavaScript helper (indexOf, regex search, character scans) is embedded as a
structurally recursive Lean function.  JSON values are modelled by `Json`
below; number literals are kept as their source lexeme (the claims under
study never depend on numeric identity, only on structural equality of the
parsed values).
-/

set_option maxRecDepth 4000

namespace Snippet

/-- The opening-brace character, kept as a named constant. -/
def lbraceC : Char := Char.ofNat 123

/-- The closing-brace character, kept as a named constant. -/
def rbraceC : Char := Char.ofNat 125

/-- The double-quote character. -/
def quoteC : Char := Char.ofNat 34

/-- The backslash character. -/
def bslashC : Char := Char.ofNat 92

/-- JSON whitespace accepted by `JSON.parse` between tokens. -/
def isJsonWs (c : Char) : Bool :=
  c = ' ' || c = '\t' || c = '\n' || c = '\r'

/-- ASCII approximation of the JavaScript regex class `\s`. -/
def isJsWs (c : Char) : Bool :=
  c = ' ' || c = '\t' || c = '\n' || c = '\r' || c = Char.ofNat 11 || c = Char.ofNat 12

/-- Does the pattern match at the head of the list? -/
def headMatch : List Char → List Char → Bool
  | [], _ => true
  | _ :: _, [] => false
  | p :: ps, c :: cs => p = c && headMatch ps cs

/-- Index of the first occurrence of `pat` in `s`; `String.prototype.indexOf`. -/
def findSub : List Char → List Char → Option Nat
  | s, pat =>
    if headMatch pat s then some 0
    else
      match s with
      | [] => none
      | _ :: rest => (findSub rest pat).map (· + 1)

/-- `indexOf(pat, k)`: first occurrence of `pat` at or after position `k`. -/
def findSubFrom (s pat : List Char) (k : Nat) : Option Nat :=
  (findSub (s.drop k) pat).map (· + k)

/-- Consume a literal from the front of a list, returning the remainder. -/
def dropLit : List Char → List Char → Option (List Char)
  | [], cs => some cs
  | _ :: _, [] => none
  | p :: ps, c :: cs => if p = c then dropLit ps cs else none

/-! ## JSON values and a model of `JSON.parse` -/

/-- JSON values.  Numbers carry their source lexeme. -/
inductive Json where
  | null : Json
  | bool : Bool → Json
  | num : List Char → Json
  | str : List Char → Json
  | arr : List Json → Json
  | obj : List (List Char × Json) → Json
deriving Repr

/-- Decode one escape character following a backslash in a JSON string. -/
def escChar (c : Char) : Option Char :=
  if c = quoteC then some quoteC
  else if c = bslashC then some bslashC
  else if c = '/' then some '/'
  else if c = 'b' then some (Char.ofNat 8)
  else if c = 'f' then some (Char.ofNat 12)
  else if c = 'n' then some '\n'
  else if c = 'r' then some '\r'
  else if c = 't' then some '\t'
  else none

/-- Value of a hexadecimal digit. -/
def hexVal (c : Char) : Option Nat :=
  if '0' ≤ c ∧ c ≤ '9' then some (c.toNat - '0'.toNat)
  else if 'a' ≤ c ∧ c ≤ 'f' then some (c.toNat - 'a'.toNat + 10)
  else if 'A' ≤ c ∧ c ≤ 'F' then some (c.toNat - 'A'.toNat + 10)
  else none

/-- Parse the body of a JSON string literal (after the opening quote),
consuming the closing quote.  Returns the decoded characters and the rest. -/
def parseStringBody : List Char → Option (List Char × List Char)
  | [] => none
  | c :: rest =>
    if c = quoteC then some ([], rest)
    else if c = bslashC then
      match rest with
      | [] => none
      | e :: rest2 =>
        if e = 'u' then
          match rest2 with
          | h1 :: h2 :: h3 :: h4 :: rest3 =>
            match hexVal h1, hexVal h2, hexVal h3, hexVal h4 with
            | some v1, some v2, some v3, some v4 =>
              (parseStringBody rest3).map fun p =>
                (Char.ofNat (((v1 * 16 + v2) * 16 + v3) * 16 + v4) :: p.1, p.2)
            | _, _, _, _ => none
          | _ => none
        else
          match escChar e with
          | some d => (parseStringBody rest2).map fun p => (d :: p.1, p.2)
          | none => none
    else if c.toNat < 32 then none
    else (parseStringBody rest).map fun p => (c :: p.1, p.2)

/-- Characters that can occur in a JSON number lexeme. -/
def numChar (c : Char) : Bool :=
  c.isDigit || c = '-' || c = '+' || c = '.' || c = 'e' || c = 'E'

/-- Consume one or more decimal digits. -/
def digitRun : List Char → Option (List Char)
  | c :: rest => if c.isDigit then some (rest.dropWhile Char.isDigit) else none
  | [] => none

/-- Validate a complete JSON number lexeme (`-?int frac? exp?`). -/
def validNum (cs : List Char) : Bool :=
  let cs1 := match cs with
    | '-' :: r => r
    | r => r
  match cs1 with
  | '0' :: r =>
    validNumFrac r
  | c :: r =>
    if c.isDigit then validNumFrac (r.dropWhile Char.isDigit) else false
  | [] => false
where
  /-- Validate the optional fraction and exponent after the integer part. -/
  validNumFrac : List Char → Bool
  | '.' :: r =>
    match digitRun r with
    | some r2 => validNumExp r2
    | none => false
  | r => validNumExp r
  /-- Validate the optional exponent part. -/
  validNumExp : List Char → Bool
  | [] => true
  | e :: r =>
    if e = 'e' ∨ e = 'E' then
      let r1 := match r with
        | '+' :: r2 => r2
        | '-' :: r2 => r2
        | r2 => r2
      match digitRun r1 with
      | some [] => true
      | _ => false
    else false

/-- Lex a JSON number at the head of the input. -/
def parseNumberLex (cs : List Char) : Option (List Char × List Char) :=
  let lex := cs.takeWhile numChar
  if lex ≠ [] ∧ validNum lex then some (lex, cs.dropWhile numChar) else none

mutual

/-- Fuel-indexed model of `JSON.parse` on one value; returns the rest of the
input after the value. -/
def parseValue : Nat → List Char → Option (Json × List Char)
  | 0, _ => none
  | fuel + 1, cs =>
    match cs.dropWhile isJsonWs with
    | [] => none
    | c :: r =>
      if c = lbraceC then
        match r.dropWhile isJsonWs with
        | c2 :: r2 =>
          if c2 = rbraceC then some (Json.obj [], r2)
          else
            match parseMembers fuel r with
            | some (ms, rest) => some (Json.obj ms, rest)
            | none => none
        | [] => none
      else if c = '[' then
        match r.dropWhile isJsonWs with
        | c2 :: r2 =>
          if c2 = ']' then some (Json.arr [], r2)
          else
            match parseElems fuel r with
            | some (vs, rest) => some (Json.arr vs, rest)
            | none => none
        | [] =>
          match parseElems fuel r with
          | some (vs, rest) => some (Json.arr vs, rest)
          | none => none
      else if c = quoteC then
        (parseStringBody r).map fun p => (Json.str p.1, p.2)
      else if headMatch ['t', 'r', 'u', 'e'] (c :: r) then
        some (Json.bool true, (c :: r).drop 4)
      else if headMatch ['f', 'a', 'l', 's', 'e'] (c :: r) then
        some (Json.bool false, (c :: r).drop 5)
      else if headMatch ['n', 'u', 'l', 'l'] (c :: r) then
        some (Json.null, (c :: r).drop 4)
      else
        (parseNumberLex (c :: r)).map fun p => (Json.num p.1, p.2)

/-- Parse the members of an object after its `{` (non-empty case), consuming
the closing `}`. -/
def parseMembers : Nat → List Char → Option (List (List Char × Json) × List Char)
  | 0, _ => none
  | fuel + 1, cs =>
    match cs.dropWhile isJsonWs with
    | c :: r =>
      if c = quoteC then
        match parseStringBody r with
        | some (key, r2) =>
          match r2.dropWhile isJsonWs with
          | c3 :: r3 =>
            if c3 = ':' then
              match parseValue fuel r3 with
              | some (v, r4) =>
                match r4.dropWhile isJsonWs with
                | c5 :: r5 =>
                  if c5 = ',' then
                    match parseMembers fuel r5 with
                    | some (ms, rest) => some ((key, v) :: ms, rest)
                    | none => none
                  else if c5 = rbraceC then some ([(key, v)], r5)
                  else none
                | [] => none
              | none => none
            else none
          | [] => none
        | none => none
      else none
    | [] => none

/-- Parse the elements of an array after its `[` (non-empty case), consuming
the closing `]`. -/
def parseElems : Nat → List Char → Option (List Json × List Char)
  | 0, _ => none
  | fuel + 1, cs =>
    match parseValue fuel cs with
    | some (v, r) =>
      match r.dropWhile isJsonWs with
      | c2 :: r2 =>
        if c2 = ',' then
          match parseElems fuel r2 with
          | some (vs, rest) => some (v :: vs, rest)
          | none => none
        else if c2 = ']' then some ([v], r2)
        else none
      | [] => none
    | none => none

end

/-- Model of a strict `JSON.parse` call: the whole input must be one value
followed only by whitespace. -/
def jsonParse (cs : List Char) : Option Json :=
  match parseValue (cs.length + 1) cs with
  | some (v, rest) => if rest.dropWhile isJsonWs = [] then some v else none
  | none => none

/-! ## The tolerant repair pass of `safeJsonParse`
(src/src/utils/HarmonyParser.ts lines 317-432). -/

/-- One global-regex pass replacing a comma, optional whitespace and a closing
delimiter by the delimiter alone (the source's trailing-comma strips). -/
def stripTrailing (close : Char) : List Char → List Char
  | [] => []
  | c :: rest =>
    if c = ',' then
      match h : rest.dropWhile isJsWs with
      | d :: r =>
        if d = close then close :: stripTrailing close r
        else c :: stripTrailing close rest
      | [] => c :: stripTrailing close rest
  else c :: stripTrailing close rest
termination_by cs => cs.length
decreasing_by
  all_goals
    first
      | (simp only [List.length_cons]
         omega)
      | (have h1 : (rest.dropWhile isJsWs).length ≤ rest.length :=
           (List.dropWhile_sublist (l := rest) isJsWs).length_le
         rw [h] at h1
         simp only [List.length_cons] at h1 ⊢
         omega)

/-- The character-by-character repair loop of `safeJsonParse`.  State:
are we inside a string, is the next string expected to be a key, and the
current brace depth. -/
def repairGo : List Char → Bool → Bool → Int → List Char
  | [], _, _, _ => []
  | c :: rest, inString, expectingKey, depth =>
    if c = bslashC ∧ inString then
      match rest with
      | n :: rest2 => c :: n :: repairGo rest2 inString expectingKey depth
      | [] => [c]
    else if ¬inString ∧ c = lbraceC then
      c :: repairGo rest inString true (depth + 1)
    else if ¬inString ∧ c = rbraceC then
      c :: repairGo rest inString false (depth - 1)
    else if ¬inString ∧ c = ',' ∧ depth > 0 then
      c :: repairGo rest inString true depth
    else if c = quoteC then
      if ¬inString then c :: repairGo rest true expectingKey depth
      else
        match rest.dropWhile isJsWs with
        | t :: _ =>
          if (t = ':' ∧ expectingKey) ∨ t = ',' ∨ t = rbraceC ∨ t = ']' then
            c :: repairGo rest false (if t = ':' then false else expectingKey) depth
          else bslashC :: c :: repairGo rest true expectingKey depth
        | [] => bslashC :: c :: repairGo rest true expectingKey depth
    else if inString then
      (if c = '\n' then [bslashC, 'n']
       else if c = '\r' then [bslashC, 'r']
       else if c = '\t' then [bslashC, 't']
       else [c]) ++ repairGo rest inString expectingKey depth
    else c :: repairGo rest inString expectingKey depth

/-- Model of `safeJsonParse`: strict parse first, then the repair pass
followed by the trailing-comma strips and a second strict parse. -/
def safeJsonParse (cs : List Char) : Option Json :=
  match jsonParse cs with
  | some v => some v
  | none =>
    jsonParse (stripTrailing ']' (stripTrailing rbraceC (repairGo cs false false 0)))

/-! ## The tool-call extractor
(src/src/utils/HarmonyParser.ts lines 448-519). -/

/-- A structured tool call: name and parsed JSON arguments. -/
structure MCPToolCall where
  name : List Char
  arguments : Json
deriving Repr

/-- The literal token that starts a tool call. -/
def toolCallLit : List Char := ['t', 'o', 'o', 'l', '_', 'c', 'a', 'l', 'l', '(']

/-- Depth-counting scan for the closing parenthesis: returns the index
(relative to the start of the scan) of the parenthesis that brings the depth
to zero. -/
def parenScan : List Char → Nat → Option Nat
  | [], _ => none
  | c :: rest, depth =>
    if c = '(' then (parenScan rest (depth + 1)).map (· + 1)
    else if c = ')' then
      if depth = 1 then some 0
      else (parenScan rest (depth - 1)).map (· + 1)
    else (parenScan rest depth).map (· + 1)

/-- String- and escape-aware brace scan: returns how many characters are
consumed up to and including the brace that brings the depth to zero. -/
def braceScan : List Char → Nat → Bool → Bool → Option Nat
  | [], _, _, _ => none
  | c :: rest, depth, inString, esc =>
    if esc then (braceScan rest depth inString false).map (· + 1)
    else if c = bslashC then (braceScan rest depth inString true).map (· + 1)
    else if c = quoteC then (braceScan rest depth (!inString) false).map (· + 1)
    else if ¬inString ∧ c = lbraceC then (braceScan rest (depth + 1) inString false).map (· + 1)
    else if ¬inString ∧ c = rbraceC then
      if depth = 1 then some 1
      else (braceScan rest (depth - 1) inString false).map (· + 1)
    else (braceScan rest depth inString esc).map (· + 1)

/-- Try the regex `key\s*="([^"]+)"` at the head of the input for one key,
returning the capture. -/
def keyCap (key cs : List Char) : Option (List Char) :=
  match dropLit key cs with
  | none => none
  | some r1 =>
    match r1.dropWhile isJsWs with
    | e :: r3 =>
      if e = '=' then
        match r3.dropWhile isJsWs with
        | q :: r5 =>
          if q = quoteC then
            let cap := r5.takeWhile (fun c => c ≠ quoteC)
            match r5.dropWhile (fun c => c ≠ quoteC) with
            | q2 :: _ => if q2 = quoteC ∧ cap ≠ [] then some cap else none
            | [] => none
        else none
        | [] => none
      else none
    | [] => none

/-- The regex `(name|tool_name)\s*=\s*"([^"]+)"` tried at one position. -/
def nameCapAt (cs : List Char) : Option (List Char) :=
  match keyCap (['n', 'a', 'm', 'e']) cs with
  | some cap => some cap
  | none => keyCap (['t', 'o', 'o', 'l', '_', 'n', 'a', 'm', 'e']) cs

/-- Leftmost match of the name regex over the whole string. -/
def nameCapture : List Char → Option (List Char)
  | [] => none
  | c :: rest =>
    match nameCapAt (c :: rest) with
    | some cap => some cap
    | none => nameCapture rest

/-- Try the regex `key\s*=` at the head of the input for one key, returning
the full matched text. -/
def argsKeyOne (key cs : List Char) : Option (List Char) :=
  match dropLit key cs with
  | none => none
  | some r1 =>
    match r1.dropWhile isJsWs with
    | e :: _ => if e = '=' then some (key ++ r1.takeWhile isJsWs ++ ['=']) else none
    | [] => none

/-- The regex `(arguments|args)\s*=` tried at one position. -/
def argsKeyAt (cs : List Char) : Option (List Char) :=
  match argsKeyOne (['a', 'r', 'g', 'u', 'm', 'e', 'n', 't', 's']) cs with
  | some m => some m
  | none => argsKeyOne (['a', 'r', 'g', 's']) cs

/-- Leftmost match of the arguments-key regex, returning the matched text. -/
def argsKeyFind : List Char → Option (List Char)
  | [] => none
  | c :: rest =>
    match argsKeyAt (c :: rest) with
    | some m => some m
    | none => argsKeyFind rest

/-- Model of `extractToolCall` (HarmonyParser.ts lines 448-519): locate the
`tool_call(` token, find the closing parenthesis by depth counting, read the
name and arguments keys by regex, find the end of the JSON object by the
string-aware brace scan, and parse the captured span with `safeJsonParse`. -/
def extractToolCall (response : List Char) : Option MCPToolCall :=
  match findSub response toolCallLit with
  | none => none
  | some callStart =>
    match findSubFrom response ['('] callStart with
    | none => none
    | some openParen =>
      match parenScan (response.drop (openParen + 1)) 1 with
      | none => none
      | some endRel =>
        let inside := (response.drop (openParen + 1)).take endRel
        match nameCapture inside with
        | none => none
        | some name =>
          match argsKeyFind inside with
          | none => none
          | some matched =>
            let argsKeyIdx := (findSub inside matched).getD 0 + matched.length
            match findSubFrom inside [lbraceC] argsKeyIdx with
            | none => none
            | some jsonStart =>
              match braceScan (inside.drop (jsonStart + 1)) 1 false false with
              | none => none
              | some m =>
                let jsonStr := (inside.drop jsonStart).take (m + 1)
                match safeJsonParse jsonStr with
                | some args => some ⟨name, args⟩
                | none => none

/-- The literal `name="` that introduces the name field in the canonical
tool-call syntax. -/
def nameKeyLit : List Char := ['n', 'a', 'm', 'e', '=', quoteC]

/-- The literal `", arguments=` between the name value and the arguments
object in the canonical tool-call syntax. -/
def argsMidLit : List Char :=
  [quoteC, ',', ' ', 'a', 'r', 'g', 'u', 'm', 'e', 'n', 't', 's', '=']

/-- The matched text `arguments=` of the arguments-key regex. -/
def argLit : List Char := ['a', 'r', 'g', 'u', 'm', 'e', 'n', 't', 's', '=']

/-- Characters that are inert for the brace scan outside strings. -/
def scanInert (c : Char) : Prop :=
  c ≠ bslashC ∧ c ≠ quoteC ∧ c ≠ lbraceC ∧ c ≠ rbraceC

/-- Decidability of inertness, for concrete literals. -/
instance (c : Char) : Decidable (scanInert c) := by
  unfold scanInert
  infer_instance

/-- A block of text over which the brace scan, started outside a string at
positive depth, passes without stopping and without changing its state. -/
def ScanNeutral (xs : List Char) : Prop :=
  ∀ (w : List Char) (d : Nat), 1 ≤ d →
    braceScan (xs ++ w) d false false = (braceScan w d false false).map (· + xs.length)

/-- A block of text over which the brace scan, inside a string, passes
without changing its state. -/
def StrNeutral (xs : List Char) : Prop :=
  ∀ (w : List Char) (d : Nat), 1 ≤ d →
    braceScan (xs ++ w) d true false = (braceScan w d true false).map (· + xs.length)

/-! ## Tool results, the native manager and the MCP client/manager
(src/src/mcpClient.ts, src/src/utils/nativeToolManager.ts,
src/src/toolExecutor.ts, MCPManager from src/README.md). -/

/-- One content block of a tool result (`{type, text?}`). -/
structure ContentBlock where
  type : String
  text : Option String
deriving Repr, DecidableEq

/-- The uniform tool-result shape (`MCPToolResult` / `NativeToolResult`).
`isError` is `none` when the field is absent. -/
structure MCPToolResult where
  content : List ContentBlock
  isError : Option Bool
deriving Repr, DecidableEq

/-- A single-quote character, used to build the executor's messages. -/
def squote : String := String.singleton (Char.ofNat 39)

/-- A text-only error result with the given message. -/
def errTextResult (msg : String) : MCPToolResult :=
  ⟨[⟨"text", some msg⟩], some true⟩

/-- The names returned by `NativeToolsManager.getAvailableTools`
(nativeToolManager.ts lines 78-271). -/
def nativeToolNames : List String :=
  ["read_file", "create_file", "replace_file", "edit_file",
   "list_files", "find_files", "grep_files", "exec_terminal"]

/-- Outcome of one underlying native tool implementation.  `Except.error`
models the implementation throwing. -/
def NativeImpl : Type := String → Json → Except String MCPToolResult

/-- Model of `NativeToolsManager.callTool` (lines 273-346): dispatch on the
tool name; the whole dispatch is wrapped in a try/catch that converts any
thrown error into an error-flagged result, so this function is total. -/
def nativeCallTool (impl : NativeImpl) (toolName : String) (args : Json) : MCPToolResult :=
  if toolName ∈ nativeToolNames then
    match impl toolName args with
    | Except.ok r => r
    | Except.error m => errTextResult ("Error executing " ++ toolName ++ ": " ++ m)
  else
    errTextResult ("Unknown tool: " ++ toolName)

/-- Observable state of one `MCPClient` as seen by the executor: whether it
is connected and initialized, its cached tool names, and the outcome of a
`tools/call` request (`Except.error` models the underlying promise
rejecting, which `MCPClient.callTool` rethrows). -/
structure MCPClientView where
  connected : Bool
  tools : List String
  callOutcome : String → Json → Except String MCPToolResult

/-- Model of `MCPClient.callTool` (mcpClient.ts lines 244-261): throws when
not initialized; otherwise returns the request's result, rethrowing its
error. -/
def clientCallTool (c : MCPClientView) (name : String) (args : Option Json) :
    Except String MCPToolResult :=
  let args' := args.getD (Json.obj [])
  if c.connected then c.callOutcome name args'
  else Except.error "not initialized"

/-- The registry: named clients in insertion order (MCPManager.clients). -/
structure MCPManagerView where
  clients : List (String × MCPClientView)

/-- Model of `MCPManager.findToolServer`: the first connected client whose
cached tool list contains the name. -/
def findToolServer (m : MCPManagerView) (name : String) : Option String :=
  (m.clients.find? fun e => e.2.connected && e.2.tools.contains name).map (·.1)

/-- Model of `MCPManager.callTool`: route to a client by server name; throws
if the server is unknown or not connected. -/
def managerCallTool (m : MCPManagerView) (server name : String) (args : Option Json) :
    Except String MCPToolResult :=
  match (m.clients.find? fun e => e.1 = server).map (·.2) with
  | none => Except.error ("MCP server " ++ server ++ " not found")
  | some c =>
    if c.connected then clientCallTool c name args
    else Except.error ("MCP server " ++ server ++ " is not connected")

/-- The executor's optional collaborators (`options` parameter). -/
structure ExecEnv where
  nativeImpl : NativeImpl
  mcpManager : Option MCPManagerView
  mcpClient : Option MCPClientView

/-- A tool call as received by the executor (`MCPToolCall` from
mcpClient.ts: the arguments field is optional). -/
structure ToolCallReq where
  name : String
  arguments : Option Json

/-- The not-found result returned by the executor
(toolExecutor.ts lines 55-64). -/
def notFoundResult (name : String) : MCPToolResult :=
  ⟨[⟨"text", some ("Tool " ++ squote ++ name ++ squote ++
      " not found in native or MCP tools.")⟩], some true⟩

/-- Model of `toolExecutor` (toolExecutor.ts lines 12-65): default the
arguments to the empty object, check native tools first, then route through
the manager, then the single-client fallback, else return the not-found
result.  An `Except.error` result models an exception escaping the
executor. -/
def toolExecutor (tc : ToolCallReq) (env : ExecEnv) : Except String MCPToolResult :=
  let args := tc.arguments.getD (Json.obj [])
  if tc.name ∈ nativeToolNames then
    Except.ok (nativeCallTool env.nativeImpl tc.name args)
  else
    match env.mcpManager with
    | some m =>
      match findToolServer m tc.name with
      | some server => managerCallTool m server tc.name (some args)
      | none => toolExecutorFallback tc.name args env
    | none => toolExecutorFallback tc.name args env
where
  /-- The single-`mcpClient` fallback and the final not-found branch. -/
  toolExecutorFallback (name : String) (args : Json) (env : ExecEnv) :
      Except String MCPToolResult :=
    match env.mcpClient with
    | some c =>
      if c.connected ∧ name ∈ c.tools then clientCallTool c name (some args)
      else Except.ok (notFoundResult name)
    | none => Except.ok (notFoundResult name)

/-! ## The pending-request table of `MCPClient.sendRequest`
(mcpClient.ts lines 133-177). -/

/-- The fixed request deadline in milliseconds (`setTimeout(..., 30000)`). -/
def requestTimeoutMs : Nat := 30000

/-- The pending-request table: which ids have a stored continuation.  A
`Map` keyed by id is modelled by its membership function. -/
def PendingTable : Type := Nat → Bool

/-- Settling a continuation: the promise resolves or rejects. -/
inductive Settle where
  | resolve : Json → Settle
  | reject : String → Settle
deriving Repr

/-- A JSON-RPC response as seen by `handleResponse`. -/
structure RpcResponse where
  id : Nat
  error : Option (Int × String)
  result : Json

/-- Remove an id from the pending table. -/
def tableDelete (t : PendingTable) (id : Nat) : PendingTable :=
  fun x => if x = id then false else t x

/-- Model of `MCPClient.handleResponse` (lines 133-143): look the id up; if
present, delete it and settle the stored continuation; otherwise do
nothing. -/
def handleResponse (t : PendingTable) (msg : RpcResponse) : PendingTable × Option Settle :=
  if t msg.id then
    (tableDelete t msg.id,
     some (match msg.error with
       | some (code, m) =>
         Settle.reject ("MCP Error: " ++ m ++ " (code: " ++ toString code ++ ")")
       | none => Settle.resolve msg.result))
  else (t, none)

/-- Model of the timeout callback registered by `sendRequest`
(lines 170-175): if the id is still pending, delete it and reject with the
timeout error. -/
def timeoutFire (t : PendingTable) (id : Nat) (method : String) :
    PendingTable × Option Settle :=
  if t id then
    (tableDelete t id, some (Settle.reject ("Request timeout for method: " ++ method)))
  else (t, none)

/-! ## The connect handshake of `MCPClient.initialize`
(mcpClient.ts lines 179-242). -/

/-- Environment for one handshake run: the outcome of the `initialize`
request, of writing the `initialized` notification, and of the `tools/list`
request (whose result may or may not carry a `tools` field). -/
structure HandshakeEnv where
  initOutcome : Except String Json
  notifyOutcome : Option String
  listOutcome : Except String (Option (List String))

/-- State of the client after a successful handshake. -/
structure HandshakeState where
  initialized : Bool
  tools : List String
deriving Repr, DecidableEq

/-- Model of `MCPClient.listTools` (lines 228-242): requires the client to
be initialized; a failed request is caught and yields an empty list, and a
missing `tools` field defaults to the empty list. -/
def listToolsModel (initialized : Bool) (env : HandshakeEnv) : Except String (List String) :=
  if ¬initialized then Except.error "not initialized"
  else
    match env.listOutcome with
    | Except.ok ts => Except.ok (ts.getD [])
    | Except.error _ => Except.ok []

/-- Model of `MCPClient.initialize` (lines 179-206): await the `initialize`
request (failure propagates), send the `initialized` notification (its
outcome is only logged), set the initialized flag, then cache the
`tools/list` result. -/
def initializeModel (env : HandshakeEnv) : Except String HandshakeState :=
  match env.initOutcome with
  | Except.error e => Except.error e
  | Except.ok _ =>
    match listToolsModel true env with
    | Except.ok ts => Except.ok ⟨true, ts⟩
    | Except.error e => Except.error e

/-! ## The server registry
(`MCPManager`, embedded in src/README.md lines 161-247). -/

/-- One server configuration (`MCPServerConfig`). -/
structure ServerConfig where
  name : String
  command : String
  args : List String
  enabled : Option Bool

/-- Insertion into the clients map (`Map.set`): overwrite in place if the
name exists, else append. -/
def mapSet (m : List (String × MCPClientView)) (k : String) (v : MCPClientView) :
    List (String × MCPClientView) :=
  if m.any fun e => e.1 = k then
    m.map fun e => if e.1 = k then (k, v) else e
  else m ++ [(k, v)]

/-- One loop iteration of `initializeServers`: skip a config whose enabled
flag is `false`; otherwise connect, storing the client on success and
reporting (and dropping) the failure otherwise. -/
def initStep (connectOutcome : ServerConfig → Except String MCPClientView)
    (acc : List (String × MCPClientView)) (cfg : ServerConfig) :
    List (String × MCPClientView) :=
  if cfg.enabled = some false then acc
  else
    match connectOutcome cfg with
    | Except.ok c => mapSet acc cfg.name c
    | Except.error _ => acc

/-- Model of `disconnectAll`: every client is disconnected and the map is
cleared; per-client failures are caught, so this cannot fail. -/
def disconnectAllModel (_ : List (String × MCPClientView)) : List (String × MCPClientView) := []

/-- Model of `MCPManager.initializeServers`: disconnect every existing
client, then process each config in order with `initStep`. -/
def initializeServers (existing : List (String × MCPClientView))
    (configs : List ServerConfig)
    (connectOutcome : ServerConfig → Except String MCPClientView) :
    List (String × MCPClientView) :=
  configs.foldl (initStep connectOutcome) (disconnectAllModel existing)

/-- Model of `MCPManager.getAllTools`: the tools of every connected
client. -/
def getAllTools (m : List (String × MCPClientView)) : List String :=
  m.foldl (fun acc e => if e.2.connected then acc ++ e.2.tools else acc) []

/-- A connected client exposing one remote tool whose `tools/call` request
rejects. -/
def failingClient : MCPClientView :=
  ⟨true, ["foo_tool"], fun _ _ => Except.error "MCP Error: boom (code: -32000)"⟩

/-- An executor environment routing through a registry that holds only
`failingClient`. -/
def failingEnv : ExecEnv :=
  ⟨fun _ _ => Except.ok ⟨[], none⟩, some ⟨[("s", failingClient)]⟩, none⟩

/-- A handshake environment whose `tools/list` request rejects while the
`initialize` request succeeds. -/
def listFailEnv : HandshakeEnv :=
  ⟨Except.ok Json.null, none, Except.error "boom"⟩

/-- A disabled server configuration. -/
def demoDisabled : ServerConfig := ⟨"a", "cmd", [], some false⟩

/-- An enabled server configuration. -/
def demoEnabled : ServerConfig := ⟨"b", "cmd", [], some true⟩

/-- The connected client produced for `demoEnabled`. -/
def demoClient : MCPClientView := ⟨true, ["t2"], fun _ _ => Except.ok ⟨[], none⟩⟩

/-- A connect oracle that succeeds only for the enabled demo config. -/
def demoOracle : ServerConfig → Except String MCPClientView :=
  fun cfg => if cfg.name = "b" then Except.ok demoClient else Except.error "fail"

/-- The argument text of the demonstration tool call. -/
def c1Args : List Char := [lbraceC, quoteC, 'a', quoteC, ':', '1', rbraceC]

/-- A complete valid tool-call text. -/
def c1Valid : List Char :=
  toolCallLit ++ nameKeyLit ++ ['x'] ++ argsMidLit ++ c1Args ++ [')']

/-- A junk fragment holding an earlier `tool_call(` occurrence. -/
def c1JunkPre : List Char := toolCallLit ++ [')', ' ']

/-! ## The multi-call extraction loop.

Modelled from the spec: the repository's richer extractor that collects
every call in one response is not under src/ (only the single-call
`extractToolCall` is); the loop below follows the spec text of section 4.4:
scan for the literal token, extract at the occurrence, and after a
successful extraction resume immediately past that call's closing
parenthesis, after a failed one resume past the failed literal token. -/

/-- Modelled from the spec: one iteration of the multi-call loop, with
`recur` standing for the continuation of the scan at the resume point. -/
def extractAllStep (recur : List Char → List MCPToolCall) (response : List Char) :
    List MCPToolCall :=
  match findSub response toolCallLit with
  | none => []
  | some k =>
    match extractToolCall (response.drop k) with
    | some call =>
      match findSub (response.drop k) ['('] with
      | some op =>
        match parenScan ((response.drop k).drop (op + 1)) 1 with
        | some endRel => call :: recur ((response.drop k).drop (op + 1 + endRel + 1))
        | none => recur ((response.drop k).drop toolCallLit.length)
      | none => recur ((response.drop k).drop toolCallLit.length)
    | none => recur ((response.drop k).drop toolCallLit.length)

/-- Modelled from the spec: the fueled multi-call loop; every iteration
strictly shrinks the scanned suffix, so `length + 1` fuel suffices. -/
def extractAllGo : Nat → List Char → List MCPToolCall
  | 0, _ => []
  | fuel + 1, response => extractAllStep (extractAllGo fuel) response

/-- Modelled from the spec: extract every tool call of a response, in
left-to-right order of appearance. -/
def extractAllToolCalls (response : List Char) : List MCPToolCall :=
  extractAllGo (response.length + 1) response

/-- A canonical demonstration call with a one-character name. -/
def c2Call (n : Char) : List Char :=
  toolCallLit ++ nameKeyLit ++ [n] ++ argsMidLit ++ c1Args ++ [')']

/-- Two consecutive valid calls wrapped in a stray `tool_call( ... )`
pair of surrounding text. -/
def c2Wrapped : List Char :=
  toolCallLit ++ [' '] ++ c2Call 'x' ++ [' '] ++ c2Call 'y' ++ [' ', ')']

/-! ## The rich response parser.

Modelled from the spec: the repository's rich response parser that returns
`\x7breasoning?, tool_calls?, content, raw\x7d` is not under src/ (the file there
holds only the legacy `finalMessage`/`channels`/`metadata` parse, while the
callers import the rich `ParsedResponse` shape), so the transcript walk
below is modelled from the spec text of section 4.3. -/

/-- The transcript start marker. -/
def startTok : List Char := ['<', '|', 's', 't', 'a', 'r', 't', '|', '>']

/-- The transcript end marker. -/
def endTok : List Char := ['<', '|', 'e', 'n', 'd', '|', '>']

/-- The opening of a transcript tag. -/
def tagOpenTok : List Char := ['<', '|']

/-- The closing of a transcript tag. -/
def tagCloseTok : List Char := ['|', '>']

/-- The reasoning-wrapper opening tag. -/
def thinkOpenTok : List Char := ['<', 't', 'h', 'i', 'n', 'k', 'i', 'n', 'g', '>']

/-- The reasoning-wrapper closing tag. -/
def thinkCloseTok : List Char := ['<', '/', 't', 'h', 'i', 'n', 'k', 'i', 'n', 'g', '>']

/-- The `channel` tag name. -/
def channelTag : List Char := ['c', 'h', 'a', 'n', 'n', 'e', 'l']

/-- The `message` tag name. -/
def messageTag : List Char := ['m', 'e', 's', 's', 'a', 'g', 'e']

/-- The `final` tag name, also the conventional final channel name. -/
def finalTag : List Char := ['f', 'i', 'n', 'a', 'l']

/-- The `end` tag name. -/
def endTagName : List Char := ['e', 'n', 'd']

/-- The reserved `assistant` role tag name. -/
def assistantTag : List Char := ['a', 's', 's', 'i', 's', 't', 'a', 'n', 't']

/-- The `think` channel name. -/
def thinkName : List Char := ['t', 'h', 'i', 'n', 'k']

/-- The `reasoning` channel name. -/
def reasoningName : List Char := ['r', 'e', 'a', 's', 'o', 'n', 'i', 'n', 'g']

/-- `String.prototype.trim`: strip whitespace from both ends. -/
def trim (cs : List Char) : List Char :=
  ((cs.dropWhile isJsWs).reverse.dropWhile isJsWs).reverse

/-- Split a string on every occurrence of a pattern; fueled, and
`length + 1` fuel always suffices for a nonempty pattern. -/
def splitOnSub : Nat → List Char → List Char → List (List Char)
  | 0, s, _ => [s]
  | fuel + 1, s, pat =>
    match findSub s pat with
    | none => [s]
    | some k => s.take k :: splitOnSub fuel (s.drop (k + pat.length)) pat

/-- Modelled from the spec: read one `tag|>value` segment (the part after a
`<|`); a segment without a tag close is ignored by the walk. -/
def parseSeg (piece : List Char) : Option (List Char × List Char) :=
  match findSub piece tagCloseTok with
  | none => none
  | some k => some (piece.take k, piece.drop (k + tagCloseTok.length))

/-- Look up a channel's accumulated text. -/
def chanGet : List (List Char × List Char) → List Char → Option (List Char)
  | [], _ => none
  | (k, v) :: rest, n => if k = n then some v else chanGet rest n

/-- Record a channel at its first appearance, keeping the order. -/
def chanReg : List (List Char × List Char) → List Char → List (List Char × List Char)
  | [], n => [(n, [])]
  | (k, t) :: rest, n => if k = n then (k, t) :: rest else (k, t) :: chanReg rest n

/-- Trimmed values are space-joined. -/
def joinSp (a b : List Char) : List Char :=
  if a.isEmpty then b else if b.isEmpty then a else a ++ ' ' :: b

/-- Append a value to a channel's text, registering the channel if new. -/
def chanApp : List (List Char × List Char) → List Char → List Char →
    List (List Char × List Char)
  | [], n, v => [(n, v)]
  | (k, t) :: rest, n, v =>
    if k = n then (k, joinSp t v) :: rest else (k, t) :: chanApp rest n v

/-- The outcome of walking one block's segments. -/
structure BlockOut where
  btext : List Char
  chans : List (List Char × List Char)
  meta : List (List Char × List Char)

/-- Modelled from the spec: walk a block's `tag|>value` segments: `channel`
switches the active channel, `message`/`final` append the trimmed value
(space-joined) to the block text and to the active channel, `assistant` is
ignored, `end` stops the block, anything else is free-form metadata. -/
def runSegs : List (List Char) → List Char → List (List Char × List Char) →
    List (List Char × List Char) → List Char → BlockOut
  | [], _, chans, meta, btext => ⟨btext, chans, meta⟩
  | piece :: rest, active, chans, meta, btext =>
    match parseSeg piece with
    | none => runSegs rest active chans meta btext
    | some (tag, value) =>
      if tag = channelTag then
        runSegs rest (trim value) (chanReg chans (trim value)) meta btext
      else if tag = messageTag ∨ tag = finalTag then
        runSegs rest active (chanApp chans active (trim value)) meta
          (joinSp btext (trim value))
      else if tag = endTagName then ⟨btext, chans, meta⟩
      else if tag = assistantTag then runSegs rest active chans meta btext
      else runSegs rest active chans (meta ++ [(tag, trim value)]) btext

/-- The `tag|>value` segments of one block: the pieces after each `<|`
(the leading piece before the first tag is the start marker's role value,
which the walk ignores). -/
def segsOf (b : List Char) : List (List Char) :=
  (splitOnSub (b.length + 1) b tagOpenTok).drop 1

/-- The outcome of walking every block of a transcript. -/
structure TransOut where
  last : Option (List Char)
  chans : List (List Char × List Char)
  meta : List (List Char × List Char)

/-- Modelled from the spec: walk the blocks in order, remembering the text
of the last block that produced non-empty text. -/
def runBlocks : List (List Char) → List (List Char × List Char) →
    List (List Char × List Char) → Option (List Char) → TransOut
  | [], chans, meta, last => ⟨last, chans, meta⟩
  | b :: rest, chans, meta, last =>
    let r := runSegs (segsOf b) [] chans meta []
    runBlocks rest r.chans r.meta (if r.btext.isEmpty then last else some r.btext)

/-- Modelled from the spec: candidate blocks are the pieces delimited by
the start marker (when a start/end marker pair is present at all), keeping
only blocks with a matching end marker. -/
def blocksOf (raw : List Char) : List (List Char) :=
  if (findSub raw startTok).isSome ∧ (findSub raw endTok).isSome then
    ((splitOnSub (raw.length + 1) raw startTok).drop 1).filter
      (fun b => (findSub b endTok).isSome)
  else []

/-- One block's accumulated message/final text, on its own. -/
def blockTextOf (b : List Char) : List Char :=
  (runSegs (segsOf b) [] [] [] []).btext

/-- The transcript walk over a whole raw response. -/
def transcriptOut (raw : List Char) : TransOut :=
  runBlocks (blocksOf raw) [] [] none

/-- Modelled from the spec: explicit reasoning-wrapper tags in the raw
text, highest-priority source of reasoning. -/
def wrapperReasoning (raw : List Char) : Option (List Char) :=
  match findSub raw thinkOpenTok with
  | none => none
  | some i =>
    match findSub (raw.drop (i + thinkOpenTok.length)) thinkCloseTok with
    | none => none
    | some j => some (trim ((raw.drop (i + thinkOpenTok.length)).take j))

/-- The rich parse result. -/
structure ParsedResponse where
  reasoning : Option (List Char)
  tool_calls : List MCPToolCall
  content : List Char
  raw : List Char

/-- Modelled from the spec: the rich parse: content is the last block's
non-empty text (else the raw input); reasoning is wrapper tags first, then
the `think` channel, then the `reasoning` channel; tool calls come from the
extractor over the entire raw text. -/
def harmonyParse (raw : List Char) : ParsedResponse :=
  let t := transcriptOut raw
  { reasoning :=
      match wrapperReasoning raw with
      | some r => some r
      | none =>
        match chanGet t.chans thinkName with
        | some v => some v
        | none => chanGet t.chans reasoningName
    tool_calls := extractAllToolCalls raw
    content := t.last.getD raw
    raw := raw }

/-- A canonical one-channel block body: role, a channel tag, a message
tag with the given value, and the end marker. -/
def chanBlock (cname v : List Char) : List Char :=
  assistantTag ++ tagOpenTok ++ channelTag ++ tagCloseTok ++ cname ++
    tagOpenTok ++ messageTag ++ tagCloseTok ++ v ++ endTok

/-- A canonical two-block transcript: a think block, then a final block. -/
def thinkFinalRaw (a b : List Char) : List Char :=
  startTok ++ chanBlock thinkName a ++ startTok ++ chanBlock finalTag b


/-- Every `<` in the text is immediately followed by `|` (so the text holds
no reasoning-wrapper tag). -/
def LtPipe (s : List Char) : Prop :=
  ∀ k, s[k]? = some '<' → s[k + 1]? = some '|'

/-- Every `<` in the text opens a tag whose body continues with `|` and
then a character other than `s` (so the text holds no start marker). -/
def LtOk (s : List Char) : Prop :=
  ∀ k, s[k]? = some '<' →
    k + 2 < s.length ∧ s[k + 1]? = some '|' ∧ s[k + 2]? ≠ some 's'


/-- A raw text carrying an explicit reasoning wrapper before other text. -/
def wrapReasoningRaw (c rest : List Char) : List Char :=
  thinkOpenTok ++ c ++ thinkCloseTok ++ rest


/-! ## Theorems -/

/-- C4: when the tool name matches no native tool, no server known to the
registry, and no tool of the fallback client, the executor returns exactly
the error-flagged not-found result (`Tool '<name>' not found in native or
MCP tools.`) and does not throw. -/
theorem toolExecutor_not_found (tc : ToolCallReq) (env : ExecEnv)
    (h1 : tc.name ∉ nativeToolNames)
    (h2 : ∀ m, env.mcpManager = some m → findToolServer m tc.name = none)
    (h3 : ∀ c, env.mcpClient = some c → ¬(c.connected ∧ tc.name ∈ c.tools)) :
    toolExecutor tc env = Except.ok (notFoundResult tc.name) ∧
    notFoundResult tc.name =
      ⟨[⟨"text", some ("Tool " ++ squote ++ tc.name ++ squote ++
          " not found in native or MCP tools.")⟩], some true⟩ := by
  refine ⟨?_, rfl⟩
  have hfb : toolExecutor.toolExecutorFallback tc.name (tc.arguments.getD (Json.obj [])) env =
      Except.ok (notFoundResult tc.name) := by
    unfold toolExecutor.toolExecutorFallback
    cases hc : env.mcpClient with
    | some c => simp only [if_neg (h3 c hc)]
    | none => rfl
  unfold toolExecutor
  simp only [if_neg h1]
  cases hm : env.mcpManager with
  | some m =>
    simp only [h2 m hm]
    exact hfb
  | none => exact hfb

/-- Witness for C4: a concrete unknown tool name against an empty
environment yields the literal not-found result. -/
theorem toolExecutor_not_found_witness :
    toolExecutor ⟨"nope", none⟩ ⟨fun _ _ => Except.ok ⟨[], none⟩, none, none⟩ =
      Except.ok (notFoundResult "nope") :=
  (toolExecutor_not_found ⟨"nope", none⟩ ⟨fun _ _ => Except.ok ⟨[], none⟩, none, none⟩
    (by decide) (fun m hm => by cases hm) (fun c hc => by cases hc)).1

/-- C3 counterexample: the tool name resolves to a connected registry
server, yet a failing remote execution escapes the executor as a thrown
exception instead of an error-flagged result. -/
theorem toolExecutor_throw_counterexample :
    findToolServer ⟨[("s", failingClient)]⟩ "foo_tool" = some "s" ∧
    toolExecutor ⟨"foo_tool", some (Json.obj [])⟩ failingEnv =
      Except.error "MCP Error: boom (code: -32000)" := by
  exact ⟨rfl, rfl⟩

/-- C3 amended: a native tool call always returns a uniform result (the
native manager converts any internal error, so nothing is thrown), while a
registry-routed call returns whatever the routed call produces — including
a propagated exception when the remote call rejects. -/
theorem toolExecutor_boundary (tc : ToolCallReq) (env : ExecEnv) :
    (tc.name ∈ nativeToolNames →
      toolExecutor tc env =
        Except.ok (nativeCallTool env.nativeImpl tc.name (tc.arguments.getD (Json.obj [])))) ∧
    (∀ m srv, tc.name ∉ nativeToolNames → env.mcpManager = some m →
      findToolServer m tc.name = some srv →
      toolExecutor tc env =
        managerCallTool m srv tc.name (some (tc.arguments.getD (Json.obj [])))) := by
  constructor
  · intro h
    unfold toolExecutor
    simp only [if_pos h]
  · intro m srv h hm hf
    unfold toolExecutor
    simp only [if_neg h]
    rw [hm]
    simp only [hf]

/-- Witness for C3: a native tool whose implementation throws is returned
as an error-flagged result, not an exception. -/
theorem toolExecutor_boundary_witness :
    toolExecutor ⟨"read_file", none⟩ ⟨fun _ _ => Except.error "enoent", none, none⟩ =
      Except.ok (errTextResult "Error executing read_file: enoent") :=
  (toolExecutor_boundary ⟨"read_file", none⟩
    ⟨fun _ _ => Except.error "enoent", none, none⟩).1 (by decide)

/-- C5: once the timeout fires for a pending id, the promise is rejected
with the timeout error and the id leaves the pending table (whose deadline
is the fixed 30000 ms); any response arriving later for the same id settles
nothing. -/
theorem sendRequest_timeout_spec (t : PendingTable) (id : Nat) (method : String)
    (h : t id = true) :
    requestTimeoutMs = 30000 ∧
    (timeoutFire t id method).2 =
      some (Settle.reject ("Request timeout for method: " ++ method)) ∧
    (timeoutFire t id method).1 id = false ∧
    (∀ msg : RpcResponse, msg.id = id →
      handleResponse (timeoutFire t id method).1 msg = ((timeoutFire t id method).1, none)) := by
  have ht : timeoutFire t id method =
      (tableDelete t id, some (Settle.reject ("Request timeout for method: " ++ method))) := by
    unfold timeoutFire
    rw [h]
    simp
  have hdel : ∀ x, tableDelete t id x = true → x ≠ id := by
    intro x hx
    intro hxid
    unfold tableDelete at hx
    rw [if_pos hxid] at hx
    cases hx
  refine ⟨rfl, ?_, ?_, ?_⟩
  · rw [ht]
  · rw [ht]
    unfold tableDelete
    simp
  · intro msg hmsg
    rw [ht]
    unfold handleResponse
    dsimp only
    have : tableDelete t id msg.id = false := by
      cases hx : tableDelete t id msg.id with
      | false => rfl
      | true => exact absurd hmsg (hdel msg.id hx)
    rw [this]
    simp

/-- Witness for C5 at a concrete pending table, id and late response. -/
theorem sendRequest_timeout_spec_witness :
    (timeoutFire (fun x => x = 5) 5 "tools/call").2 =
      some (Settle.reject "Request timeout for method: tools/call") ∧
    handleResponse (timeoutFire (fun x => x = 5) 5 "tools/call").1 ⟨5, none, Json.null⟩ =
      ((timeoutFire (fun x => x = 5) 5 "tools/call").1, none) := by
  have h := sendRequest_timeout_spec (fun x => x = 5) 5 "tools/call" (by decide)
  exact ⟨h.2.1, h.2.2.2 ⟨5, none, Json.null⟩ rfl⟩

/-- C6 counterexample: a handshake whose `tools/list` request fails still
resolves `connect()` successfully (with an empty cached tool list), so a
failure of that step does not propagate as a connection failure. -/
theorem initialize_counterexample :
    listFailEnv.listOutcome = Except.error "boom" ∧
    initializeModel listFailEnv = Except.ok ⟨true, []⟩ :=
  ⟨rfl, rfl⟩

/-- C6 amended: the handshake fails exactly when the `initialize` request
fails; a notification failure is only logged, and a `tools/list` failure is
caught inside `listTools`, leaving an empty cached tool list. -/
theorem initialize_characterization (env : HandshakeEnv) :
    initializeModel env =
      match env.initOutcome with
      | Except.error e => Except.error e
      | Except.ok _ =>
        Except.ok ⟨true, match env.listOutcome with
          | Except.ok ts => ts.getD []
          | Except.error _ => []⟩ := by
  unfold initializeModel listToolsModel
  cases env.initOutcome with
  | error e => rfl
  | ok v =>
    cases env.listOutcome with
    | ok ts => simp
    | error e => simp

/-- C10: an absent arguments field is defaulted to the empty object, both
by the executor and by `MCPClient.callTool`; in particular a native tool's
implementation receives the empty object. -/
theorem arguments_defaulting (n : String) (env : ExecEnv) (c : MCPClientView)
    (hn : n ∈ nativeToolNames) :
    toolExecutor ⟨n, none⟩ env = toolExecutor ⟨n, some (Json.obj [])⟩ env ∧
    clientCallTool c n none = clientCallTool c n (some (Json.obj [])) ∧
    toolExecutor ⟨n, none⟩ env =
      Except.ok (nativeCallTool env.nativeImpl n (Json.obj [])) := by
  refine ⟨rfl, rfl, ?_⟩
  unfold toolExecutor
  simp only [if_pos hn, Option.getD_none]

/-- Witness for C10 at a concrete native tool and environment. -/
theorem arguments_defaulting_witness :
    toolExecutor ⟨"read_file", none⟩ ⟨fun _ _ => Except.ok ⟨[], none⟩, none, none⟩ =
      Except.ok (nativeCallTool (fun _ _ => Except.ok ⟨[], none⟩) "read_file" (Json.obj [])) :=
  (arguments_defaulting "read_file" ⟨fun _ _ => Except.ok ⟨[], none⟩, none, none⟩
    ⟨true, [], fun _ _ => Except.ok ⟨[], none⟩⟩ (by decide)).2.2

/-- Membership after a map insertion: the entry was already present or is
the inserted pair. -/
theorem mem_mapSet {m : List (String × MCPClientView)} {k : String} {v : MCPClientView}
    {e : String × MCPClientView} (h : e ∈ mapSet m k v) : e ∈ m ∨ e = (k, v) := by
  unfold mapSet at h
  by_cases hk : m.any fun x => x.1 = k
  · rw [if_pos hk] at h
    rcases List.mem_map.1 h with ⟨e', he', heq⟩
    by_cases hek : e'.1 = k
    · rw [if_pos hek] at heq
      exact Or.inr heq.symm
    · rw [if_neg hek] at heq
      exact Or.inl (heq ▸ he')
  · rw [if_neg hk] at h
    rcases List.mem_append.1 h with h1 | h1
    · exact Or.inl h1
    · rcases List.mem_singleton.1 h1 with rfl
      exact Or.inr rfl

/-- A key present before a map insertion is still present afterwards. -/
theorem mapSet_key_mono {m : List (String × MCPClientView)} {k k' : String}
    {v : MCPClientView} (h : ∃ e ∈ m, e.1 = k') :
    ∃ e ∈ mapSet m k v, e.1 = k' := by
  rcases h with ⟨e, he, hek⟩
  unfold mapSet
  by_cases hk : m.any fun x => x.1 = k
  · rw [if_pos hk]
    by_cases hek2 : e.1 = k
    · exact ⟨(k, v), List.mem_map.2 ⟨e, he, by rw [if_pos hek2]⟩, by rw [← hek2, hek]⟩
    · exact ⟨e, List.mem_map.2 ⟨e, he, by rw [if_neg hek2]⟩, hek⟩
  · rw [if_neg hk]
    exact ⟨e, List.mem_append.2 (Or.inl he), hek⟩

/-- Every entry of the registry produced by the `initializeServers` loop
comes from an enabled config whose connect attempt succeeded. -/
theorem initFold_mem (oracle : ServerConfig → Except String MCPClientView) :
    ∀ (cfgs : List ServerConfig) (acc : List (String × MCPClientView))
      (e : String × MCPClientView), e ∈ cfgs.foldl (initStep oracle) acc →
      e ∈ acc ∨ ∃ cfg ∈ cfgs, cfg.enabled ≠ some false ∧
        oracle cfg = Except.ok e.2 ∧ e.1 = cfg.name := by
  intro cfgs
  induction cfgs with
  | nil => intro acc e h; exact Or.inl h
  | cons cfg rest ih =>
    intro acc e h
    rw [List.foldl_cons] at h
    rcases ih (initStep oracle acc cfg) e h with h1 | ⟨cfg', hc', hen, hok, hname⟩
    · unfold initStep at h1
      by_cases hdis : cfg.enabled = some false
      · rw [if_pos hdis] at h1
        exact Or.inl h1
      · rw [if_neg hdis] at h1
        cases hor : oracle cfg with
        | ok c =>
          rw [hor] at h1
          rcases mem_mapSet h1 with h2 | h2
          · exact Or.inl h2
          · refine Or.inr ⟨cfg, List.mem_cons_self _ _, hdis, ?_, ?_⟩
            · rw [hor, h2]
            · rw [h2]
        | error msg =>
          rw [hor] at h1
          exact Or.inl h1
    · exact Or.inr ⟨cfg', List.mem_cons_of_mem _ hc', hen, hok, hname⟩

/-- A key present in the accumulator survives the rest of the
`initializeServers` loop. -/
theorem initFold_key_mono (oracle : ServerConfig → Except String MCPClientView) :
    ∀ (cfgs : List ServerConfig) (acc : List (String × MCPClientView)) (k : String),
      (∃ e ∈ acc, e.1 = k) → ∃ e ∈ cfgs.foldl (initStep oracle) acc, e.1 = k := by
  intro cfgs
  induction cfgs with
  | nil => intro acc k h; exact h
  | cons cfg rest ih =>
    intro acc k h
    rw [List.foldl_cons]
    refine ih _ k ?_
    unfold initStep
    by_cases hdis : cfg.enabled = some false
    · rw [if_pos hdis]; exact h
    · rw [if_neg hdis]
      cases hor : oracle cfg with
      | ok c => exact mapSet_key_mono h
      | error msg => exact h

/-- Membership in `getAllTools`: the tool comes from some connected entry. -/
theorem getAllTools_mem (m : List (String × MCPClientView)) (tl : String) :
    tl ∈ getAllTools m ↔ ∃ e ∈ m, e.2.connected ∧ tl ∈ e.2.tools := by
  have general : ∀ (l : List (String × MCPClientView)) (acc : List String),
      tl ∈ l.foldl (fun acc e => if e.2.connected then acc ++ e.2.tools else acc) acc ↔
        tl ∈ acc ∨ ∃ e ∈ l, e.2.connected ∧ tl ∈ e.2.tools := by
    intro l
    induction l with
    | nil => intro acc; simp
    | cons e rest ih =>
      intro acc
      rw [List.foldl_cons, ih]
      by_cases hc : e.2.connected
      · simp only [if_pos hc, List.mem_append]
        constructor
        · rintro ((h | h) | h)
          · exact Or.inl h
          · exact Or.inr ⟨e, List.mem_cons_self _ _, hc, h⟩
          · rcases h with ⟨e', he', hp⟩
            exact Or.inr ⟨e', List.mem_cons_of_mem _ he', hp⟩
        · rintro (h | ⟨e', he', hcon, htl⟩)
          · exact Or.inl (Or.inl h)
          · rcases List.mem_cons.1 he' with rfl | he2
            · exact Or.inl (Or.inr htl)
            · exact Or.inr ⟨e', he2, hcon, htl⟩
      · simp only [if_neg hc]
        constructor
        · rintro (h | ⟨e', he', hp⟩)
          · exact Or.inl h
          · exact Or.inr ⟨e', List.mem_cons_of_mem _ he', hp⟩
        · rintro (h | ⟨e', he', hcon, htl⟩)
          · exact Or.inl h
          · rcases List.mem_cons.1 he' with rfl | he2
            · exact absurd hcon (by simpa using hc)
            · exact Or.inr ⟨e', he2, hcon, htl⟩
  rw [getAllTools, general]
  simp

/-- C9: `initializeServers` clears existing connections first (the result
is independent of them), every tool visible afterwards comes from an
enabled config whose connection succeeded and is connected, and each
enabled config that connects successfully ends up registered regardless of
the other configs' failures. -/
theorem initializeServers_spec (existing : List (String × MCPClientView))
    (configs : List ServerConfig)
    (oracle : ServerConfig → Except String MCPClientView) :
    (initializeServers existing configs oracle = initializeServers [] configs oracle) ∧
    (∀ tl ∈ getAllTools (initializeServers existing configs oracle),
      ∃ cfg ∈ configs, cfg.enabled ≠ some false ∧
        ∃ c, oracle cfg = Except.ok c ∧ c.connected ∧ tl ∈ c.tools) ∧
    (∀ cfg ∈ configs, cfg.enabled ≠ some false →
      ∀ c, oracle cfg = Except.ok c →
        ∃ e ∈ initializeServers existing configs oracle, e.1 = cfg.name) := by
  refine ⟨rfl, ?_, ?_⟩
  · intro tl htl
    rcases (getAllTools_mem _ tl).1 htl with ⟨e, he, hcon, htools⟩
    rcases initFold_mem oracle configs (disconnectAllModel existing) e he with h | ⟨cfg, hc, hen, hok, _⟩
    · cases h
    · exact ⟨cfg, hc, hen, e.2, hok, hcon, htools⟩
  · intro cfg hc hen c hok
    unfold initializeServers
    have main : ∀ (cfgs : List ServerConfig) (acc : List (String × MCPClientView)),
        cfg ∈ cfgs → ∃ e ∈ cfgs.foldl (initStep oracle) acc, e.1 = cfg.name := by
      intro cfgs
      induction cfgs with
      | nil => intro acc h; cases h
      | cons cfg' rest ih =>
        intro acc h
        rcases List.mem_cons.1 h with rfl | h2
        · rw [List.foldl_cons]
          refine initFold_key_mono oracle rest _ cfg.name ?_
          unfold initStep
          rw [if_neg hen, hok]
          dsimp only
          unfold mapSet
          by_cases hk : acc.any fun x => x.1 = cfg.name
          · rw [if_pos hk]
            rcases List.any_eq_true.1 hk with ⟨e, he, hek⟩
            refine ⟨(cfg.name, c), List.mem_map.2 ⟨e, he, ?_⟩, rfl⟩
            rw [if_pos (by simpa using hek)]
          · rw [if_neg hk]
            exact ⟨(cfg.name, c), List.mem_append.2 (Or.inr (List.mem_singleton.2 rfl)), rfl⟩
        · rw [List.foldl_cons]
          exact ih _ h2
    exact main configs _ hc

/-- Witness for C9: with a disabled config and an enabled one, only the
enabled server is registered and its tools are the only visible ones. -/
theorem initializeServers_spec_witness :
    (∃ e ∈ initializeServers [] [demoDisabled, demoEnabled] demoOracle, e.1 = "b") ∧
    getAllTools (initializeServers [] [demoDisabled, demoEnabled] demoOracle) = ["t2"] := by
  refine ⟨?_, rfl⟩
  exact (initializeServers_spec [] [demoDisabled, demoEnabled] demoOracle).2.2 demoEnabled
    (List.mem_cons_of_mem _ (List.mem_cons_self _ _)) (by decide) demoClient rfl

/-! ## Neutrality lemmas for the string-aware brace scan -/

/-- One step of the brace scan, as an equation usable for rewriting. -/
theorem braceScan_cons (c : Char) (rest : List Char) (depth : Nat) (inString esc : Bool) :
    braceScan (c :: rest) depth inString esc =
      if esc then (braceScan rest depth inString false).map (· + 1)
      else if c = bslashC then (braceScan rest depth inString true).map (· + 1)
      else if c = quoteC then (braceScan rest depth (!inString) false).map (· + 1)
      else if ¬inString ∧ c = lbraceC then (braceScan rest (depth + 1) inString false).map (· + 1)
      else if ¬inString ∧ c = rbraceC then
        if depth = 1 then some 1
        else (braceScan rest (depth - 1) inString false).map (· + 1)
      else (braceScan rest depth inString esc).map (· + 1) := rfl

/-- The empty block is neutral for the scan. -/
theorem scanNeutral_nil : ScanNeutral [] := by
  intro w d _
  simp only [List.nil_append, List.length_nil]
  cases braceScan w d false false <;> simp

/-- Neutral blocks compose. -/
theorem scanNeutral_append {xs ys : List Char}
    (hx : ScanNeutral xs) (hy : ScanNeutral ys) : ScanNeutral (xs ++ ys) := by
  intro w d hd
  rw [List.append_assoc, hx (ys ++ w) d hd, hy w d hd]
  cases braceScan w d false false <;> simp [List.length_append] <;> omega

/-- A single inert character is neutral. -/
theorem scanNeutral_char {c : Char} (h : scanInert c) : ScanNeutral [c] := by
  intro w d hd
  obtain ⟨h1, h2, h3, h4⟩ := h
  show braceScan (c :: w) d false false = _
  rw [braceScan_cons]
  simp [h1, h2, h3, h4]

/-- A list of inert characters is neutral. -/
theorem scanNeutral_all {xs : List Char} (h : ∀ c ∈ xs, scanInert c) : ScanNeutral xs := by
  induction xs with
  | nil => exact scanNeutral_nil
  | cons c rest ih =>
    have : ([c] ++ rest : List Char) = c :: rest := rfl
    rw [← this]
    exact scanNeutral_append (scanNeutral_char (h c (List.mem_cons_self _ _)))
      (ih fun x hx => h x (List.mem_cons_of_mem _ hx))

/-- The empty block is neutral inside a string. -/
theorem strNeutral_nil : StrNeutral [] := by
  intro w d _
  simp only [List.nil_append, List.length_nil]
  cases braceScan w d true false <;> simp

/-- In-string neutral blocks compose. -/
theorem strNeutral_append {xs ys : List Char}
    (hx : StrNeutral xs) (hy : StrNeutral ys) : StrNeutral (xs ++ ys) := by
  intro w d hd
  rw [List.append_assoc, hx (ys ++ w) d hd, hy w d hd]
  cases braceScan w d true false <;> simp [List.length_append] <;> omega

/-- An ordinary string character (not backslash, not quote) is neutral
inside a string. -/
theorem strNeutral_char {c : Char} (h1 : c ≠ bslashC) (h2 : c ≠ quoteC) :
    StrNeutral [c] := by
  intro w d hd
  show braceScan (c :: w) d true false = _
  rw [braceScan_cons]
  simp [h1, h2]

/-- A backslash followed by any character is neutral inside a string. -/
theorem strNeutral_esc (c : Char) : StrNeutral [bslashC, c] := by
  intro w d hd
  show braceScan (bslashC :: c :: w) d true false = _
  rw [braceScan_cons]
  rw [if_neg (by simp : ¬(false = true)), if_pos rfl]
  rw [braceScan_cons]
  rw [if_pos rfl]
  cases braceScan w d true false <;> simp

/-- A quote-delimited string whose body is in-string neutral is neutral
outside strings. -/
theorem scanNeutral_string {body : List Char} (h : StrNeutral body) :
    ScanNeutral (quoteC :: body ++ [quoteC]) := by
  intro w d hd
  have step1 : braceScan ((quoteC :: body ++ [quoteC]) ++ w) d false false =
      (braceScan (body ++ quoteC :: w) d true false).map (· + 1) := by
    have hrw : (quoteC :: body ++ [quoteC]) ++ w = quoteC :: (body ++ quoteC :: w) := by
      simp
    rw [hrw, braceScan_cons]
    simp [(by decide : quoteC ≠ bslashC)]
  have step2 := h (quoteC :: w) d hd
  have step3 : braceScan (quoteC :: w) d true false =
      (braceScan w d false false).map (· + 1) := by
    rw [braceScan_cons]
    simp [(by decide : quoteC ≠ bslashC)]
  rw [step1, step2, step3]
  cases braceScan w d false false <;> simp <;> omega

/-- A brace-delimited block whose interior is neutral is itself neutral. -/
theorem scanNeutral_braces {mid : List Char} (h : ScanNeutral mid) :
    ScanNeutral (lbraceC :: mid ++ [rbraceC]) := by
  intro w d hd
  have step1 : braceScan ((lbraceC :: mid ++ [rbraceC]) ++ w) d false false =
      (braceScan (mid ++ rbraceC :: w) (d + 1) false false).map (· + 1) := by
    have hrw : (lbraceC :: mid ++ [rbraceC]) ++ w = lbraceC :: (mid ++ rbraceC :: w) := by
      simp
    rw [hrw, braceScan_cons]
    simp [(by decide : lbraceC ≠ bslashC), (by decide : lbraceC ≠ quoteC)]
  have step2 := h (rbraceC :: w) (d + 1) (by omega)
  have step3 : braceScan (rbraceC :: w) (d + 1) false false =
      (braceScan w d false false).map (· + 1) := by
    rw [braceScan_cons]
    rw [if_neg (by simp : ¬(false = true))]
    rw [if_neg (by decide : ¬rbraceC = bslashC)]
    rw [if_neg (by decide : ¬rbraceC = quoteC)]
    rw [if_neg (by simp [(by decide : ¬rbraceC = lbraceC)] :
      ¬(¬(false = true) ∧ rbraceC = lbraceC))]
    rw [if_pos ⟨by simp, rfl⟩]
    rw [if_neg (by omega : ¬d + 1 = 1)]
    simp
  rw [step1, step2, step3]
  cases braceScan w d false false <;> simp <;> omega

/-- A hexadecimal digit is neither a backslash nor a quote. -/
theorem hexVal_ne {c : Char} {v : Nat} (h : hexVal c = some v) :
    c ≠ bslashC ∧ c ≠ quoteC := by
  constructor
  · intro heq
    subst heq
    rw [(by decide : hexVal bslashC = none)] at h
    cases h
  · intro heq
    subst heq
    rw [(by decide : hexVal quoteC = none)] at h
    cases h

/-- Shape of a parsed string body: the consumed characters are in-string
neutral and end with the closing quote. -/
theorem parseStringBody_shape (cs : List Char) :
    ∀ s rest, parseStringBody cs = some (s, rest) →
      ∃ xs, cs = xs ++ quoteC :: rest ∧ StrNeutral xs := by
  induction cs using parseStringBody.induct with
  | case1 =>
    intro s rest h
    cases h
  | case2 rest0 =>
    intro s rest h
    have heq : parseStringBody (quoteC :: rest0) = some ([], rest0) := by
      conv_lhs => rw [parseStringBody.eq_def]
      simp
    rw [heq] at h
    injection h with h1
    have hrest : rest0 = rest := congrArg Prod.snd h1
    subst hrest
    exact ⟨[], rfl, strNeutral_nil⟩
  | case3 =>
    intro s rest h
    have heq : parseStringBody [bslashC] = none := by
      conv_lhs => rw [parseStringBody.eq_def]
      simp [(by decide : (bslashC = quoteC) = False)]
    rw [heq] at h
    cases h
  | case4 h1 h2 h3 h4 rest3 v1 v2 v3 v4 hv4 hv3 hv2 hv1 hne ih =>
    intro s rest h
    have heq : parseStringBody (bslashC :: 'u' :: h1 :: h2 :: h3 :: h4 :: rest3) =
        (parseStringBody rest3).map fun p =>
          (Char.ofNat (((v1 * 16 + v2) * 16 + v3) * 16 + v4) :: p.1, p.2) := by
      conv_lhs => rw [parseStringBody.eq_def]
      simp [hv1, hv2, hv3, hv4, (by decide : (bslashC = quoteC) = False)]
    rw [heq] at h
    cases hp : parseStringBody rest3 with
    | none =>
      rw [hp] at h
      cases h
    | some p =>
      rw [hp] at h
      injection h with h'
      rcases ih p.1 p.2 hp with ⟨xs, hxs, hneut⟩
      refine ⟨bslashC :: 'u' :: h1 :: h2 :: h3 :: h4 :: xs, ?_, ?_⟩
      · have hr : rest = p.2 := (congrArg Prod.snd h').symm
        rw [hr, hxs]
        simp
      · have e1 : (bslashC :: 'u' :: h1 :: h2 :: h3 :: h4 :: xs : List Char) =
            [bslashC, 'u'] ++ [h1] ++ [h2] ++ [h3] ++ [h4] ++ xs := by simp
        rw [e1]
        exact strNeutral_append (strNeutral_append (strNeutral_append (strNeutral_append
          (strNeutral_append (strNeutral_esc 'u')
            (strNeutral_char (hexVal_ne hv1).1 (hexVal_ne hv1).2))
            (strNeutral_char (hexVal_ne hv2).1 (hexVal_ne hv2).2))
            (strNeutral_char (hexVal_ne hv3).1 (hexVal_ne hv3).2))
            (strNeutral_char (hexVal_ne hv4).1 (hexVal_ne hv4).2)) hneut
  | case5 h1 h2 h3 h4 rest3 hne hbad =>
    intro s rest h
    exfalso
    have heq : parseStringBody (bslashC :: 'u' :: h1 :: h2 :: h3 :: h4 :: rest3) = none := by
      conv_lhs => rw [parseStringBody.eq_def]
      cases e1 : hexVal h1 with
      | none => simp [e1, (by decide : (bslashC = quoteC) = False)]
      | some v1 =>
        cases e2 : hexVal h2 with
        | none => simp [e1, e2, (by decide : (bslashC = quoteC) = False)]
        | some v2 =>
          cases e3 : hexVal h3 with
          | none => simp [e1, e2, e3, (by decide : (bslashC = quoteC) = False)]
          | some v3 =>
            cases e4 : hexVal h4 with
            | none => simp [e1, e2, e3, e4, (by decide : (bslashC = quoteC) = False)]
            | some v4 => exact absurd (hbad v1 v2 v3 v4 e1 e2 e3 e4) (by simp)
    rw [heq] at h
    cases h
  | case6 rest0 hne hshort =>
    intro s rest h
    exfalso
    match rest0, hshort with
    | [], _ =>
      have heq : parseStringBody [bslashC, 'u'] = none := by
        conv_lhs => rw [parseStringBody.eq_def]
        simp [(by decide : (bslashC = quoteC) = False)]
      rw [heq] at h
      cases h
    | [a], _ =>
      have heq : parseStringBody [bslashC, 'u', a] = none := by
        conv_lhs => rw [parseStringBody.eq_def]
        simp [(by decide : (bslashC = quoteC) = False)]
      rw [heq] at h
      cases h
    | [a, b], _ =>
      have heq : parseStringBody [bslashC, 'u', a, b] = none := by
        conv_lhs => rw [parseStringBody.eq_def]
        simp [(by decide : (bslashC = quoteC) = False)]
      rw [heq] at h
      cases h
    | [a, b, c], _ =>
      have heq : parseStringBody [bslashC, 'u', a, b, c] = none := by
        conv_lhs => rw [parseStringBody.eq_def]
        simp [(by decide : (bslashC = quoteC) = False)]
      rw [heq] at h
      cases h
    | a :: b :: c :: d :: r, hs => exact absurd (hs a b c d r rfl) (by simp)
  | case7 e rest0 hne d hesc hbq ih =>
    intro s rest h
    have heq : parseStringBody (bslashC :: e :: rest0) =
        (parseStringBody rest0).map fun p => (d :: p.1, p.2) := by
      conv_lhs => rw [parseStringBody.eq_def]
      simp [hne, hesc, (by decide : (bslashC = quoteC) = False)]
    rw [heq] at h
    cases hp : parseStringBody rest0 with
    | none =>
      rw [hp] at h
      cases h
    | some p =>
      rw [hp] at h
      injection h with h'
      rcases ih p.1 p.2 hp with ⟨xs, hxs, hneut⟩
      refine ⟨bslashC :: e :: xs, ?_, ?_⟩
      · have hr : rest = p.2 := (congrArg Prod.snd h').symm
        rw [hr, hxs]
        simp
      · have e1 : (bslashC :: e :: xs : List Char) = [bslashC, e] ++ xs := by simp
        rw [e1]
        exact strNeutral_append (strNeutral_esc e) hneut
  | case8 e rest0 hne hesc hbq =>
    intro s rest h
    exfalso
    have heq : parseStringBody (bslashC :: e :: rest0) = none := by
      conv_lhs => rw [parseStringBody.eq_def]
      simp [hne, hesc, (by decide : (bslashC = quoteC) = False)]
    rw [heq] at h
    cases h
  | case9 c rest0 hq hb hctl =>
    intro s rest h
    exfalso
    have heq : parseStringBody (c :: rest0) = none := by
      conv_lhs => rw [parseStringBody.eq_def]
      simp [hq, hb, hctl]
    rw [heq] at h
    cases h
  | case10 c rest0 hq hb hctl ih =>
    intro s rest h
    have heq : parseStringBody (c :: rest0) =
        (parseStringBody rest0).map fun p => (c :: p.1, p.2) := by
      conv_lhs => rw [parseStringBody.eq_def]
      simp [hq, hb, hctl]
    rw [heq] at h
    cases hp : parseStringBody rest0 with
    | none =>
      rw [hp] at h
      cases h
    | some p =>
      rw [hp] at h
      injection h with h'
      rcases ih p.1 p.2 hp with ⟨xs, hxs, hneut⟩
      refine ⟨c :: xs, ?_, ?_⟩
      · have hr : rest = p.2 := (congrArg Prod.snd h').symm
        rw [hr, hxs]
        simp
      · have e1 : (c :: xs : List Char) = [c] ++ xs := rfl
        rw [e1]
        exact strNeutral_append (strNeutral_char hb hq) hneut

/-- JSON whitespace characters are inert for the brace scan. -/
theorem wsInert {c : Char} (h : isJsonWs c = true) : scanInert c := by
  have hc : ((c = ' ' ∨ c = '\t') ∨ c = '\n') ∨ c = '\r' := by
    simpa [isJsonWs] using h
  rcases hc with ((rfl | rfl) | rfl) | rfl <;>
    exact ⟨by decide, by decide, by decide, by decide⟩

/-- Number-lexeme characters are inert for the brace scan. -/
theorem numInert {c : Char} (h : numChar c = true) : scanInert c := by
  have hc : ((((c.isDigit = true ∨ c = '-') ∨ c = '+') ∨ c = '.') ∨ c = 'e') ∨ c = 'E' := by
    simpa [numChar] using h
  rcases hc with ((((hd | rfl) | rfl) | rfl) | rfl) | rfl
  · refine ⟨?_, ?_, ?_, ?_⟩
    · intro heq
      subst heq
      rw [(by decide : Char.isDigit bslashC = false)] at hd
      cases hd
    · intro heq
      subst heq
      rw [(by decide : Char.isDigit quoteC = false)] at hd
      cases hd
    · intro heq
      subst heq
      rw [(by decide : Char.isDigit lbraceC = false)] at hd
      cases hd
    · intro heq
      subst heq
      rw [(by decide : Char.isDigit rbraceC = false)] at hd
      cases hd
  all_goals exact ⟨by decide, by decide, by decide, by decide⟩

/-- The whitespace run removed in front of a token is neutral. -/
theorem scanNeutral_ws (cs : List Char) : ScanNeutral (cs.takeWhile isJsonWs) := by
  refine scanNeutral_all fun c hc => wsInert ?_
  exact List.mem_takeWhile_imp hc

/-- A successful `headMatch` decomposes the input. -/
theorem headMatch_decomp {pat s : List Char} (h : headMatch pat s = true) :
    s = pat ++ s.drop pat.length := by
  induction pat generalizing s with
  | nil => simp
  | cons p ps ih =>
    cases s with
    | nil => cases h
    | cons c cs =>
      have h2 : p = c ∧ headMatch ps cs = true := by
        simpa [headMatch, Bool.and_eq_true] using h
      rw [h2.1]
      simpa using ih h2.2


/-- Consumed-span decomposition for the JSON parser: whatever any of the
three mutual parsers consumes is scan-neutral, and objects and arrays end
with their closing delimiter. -/
theorem parse_shape (fuel : Nat) :
    (∀ cs v rest, parseValue fuel cs = some (v, rest) →
      ∃ xs, cs = xs ++ rest ∧ ScanNeutral xs) ∧
    (∀ cs ms rest, parseMembers fuel cs = some (ms, rest) →
      ∃ xs, cs = xs ++ rbraceC :: rest ∧ ScanNeutral xs) ∧
    (∀ cs vs rest, parseElems fuel cs = some (vs, rest) →
      ∃ xs, cs = xs ++ ']' :: rest ∧ ScanNeutral xs) := by
  induction fuel with
  | zero =>
    refine ⟨?_, ?_, ?_⟩
    · intro cs v rest h
      rw [show parseValue 0 cs = none from rfl] at h
      cases h
    · intro cs ms rest h
      rw [show parseMembers 0 cs = none from rfl] at h
      cases h
    · intro cs vs rest h
      rw [show parseElems 0 cs = none from rfl] at h
      cases h
  | succ n ih =>
    obtain ⟨ihV, ihM, ihE⟩ := ih
    refine ⟨?_, ?_, ?_⟩
    · -- parseValue
      intro cs v rest h
      rw [parseValue.eq_2] at h
      have hsplit : cs = cs.takeWhile isJsonWs ++ cs.dropWhile isJsonWs :=
        (List.takeWhile_append_dropWhile (p := isJsonWs) (l := cs)).symm
      cases hd : List.dropWhile isJsonWs cs with
      | nil =>
        rw [hd] at h
        cases h
      | cons c r =>
        rw [hd] at h
        dsimp only at h
        rw [hd] at hsplit
        by_cases hbrace : c = lbraceC
        · rw [if_pos hbrace] at h
          subst hbrace
          cases hd2 : List.dropWhile isJsonWs r with
          | nil =>
            rw [hd2] at h
            cases h
          | cons c2 r2 =>
            rw [hd2] at h
            dsimp only at h
            have hsplit2 : r = r.takeWhile isJsonWs ++ c2 :: r2 := by
              conv_lhs => rw [← List.takeWhile_append_dropWhile (p := isJsonWs) (l := r)]
              rw [hd2]
            by_cases hrb : c2 = rbraceC
            · rw [if_pos hrb] at h
              subst hrb
              injection h with h'
              have hr : rest = r2 := (congrArg Prod.snd h').symm
              subst hr
              refine ⟨cs.takeWhile isJsonWs ++ lbraceC :: (r.takeWhile isJsonWs ++ [rbraceC]), ?_, ?_⟩
              · conv_lhs => rw [hsplit, hsplit2]
                simp
              · exact scanNeutral_append (scanNeutral_ws cs)
                  (scanNeutral_braces (scanNeutral_ws r))
            · rw [if_neg hrb] at h
              cases hm : parseMembers n r with
              | none =>
                rw [hm] at h
                cases h
              | some p =>
                obtain ⟨ms0, rest0⟩ := p
                rw [hm] at h
                dsimp only at h
                injection h with h'
                have hr : rest = rest0 := (congrArg Prod.snd h').symm
                subst hr
                rcases ihM r ms0 rest hm with ⟨xs, hxs, hneut⟩
                refine ⟨cs.takeWhile isJsonWs ++ lbraceC :: (xs ++ [rbraceC]), ?_, ?_⟩
                · conv_lhs => rw [hsplit, hxs]
                  simp
                · exact scanNeutral_append (scanNeutral_ws cs) (scanNeutral_braces hneut)
        · rw [if_neg hbrace] at h
          by_cases harr : c = '['
          · rw [if_pos harr] at h
            subst harr
            have elemCase : ∀ hE : (match parseElems n r with
                | some (vs, rest) => some (Json.arr vs, rest)
                | none => none) = some (v, rest),
                ∃ xs, cs = xs ++ rest ∧ ScanNeutral xs := by
              intro hE
              cases he : parseElems n r with
              | none =>
                rw [he] at hE
                cases hE
              | some p =>
                obtain ⟨vs0, rest0⟩ := p
                rw [he] at hE
                dsimp only at hE
                injection hE with h'
                have hr : rest = rest0 := (congrArg Prod.snd h').symm
                subst hr
                rcases ihE r vs0 rest he with ⟨xs, hxs, hneut⟩
                refine ⟨cs.takeWhile isJsonWs ++ '[' :: (xs ++ [']']), ?_, ?_⟩
                · conv_lhs => rw [hsplit, hxs]
                  simp
                · refine scanNeutral_append (scanNeutral_ws cs) ?_
                  have e1 : ('[' :: (xs ++ [']']) : List Char) = [ '[' ] ++ xs ++ [ ']' ] := by
                    simp
                  rw [e1]
                  exact scanNeutral_append (scanNeutral_append
                    (scanNeutral_char ⟨by decide, by decide, by decide, by decide⟩) hneut)
                    (scanNeutral_char ⟨by decide, by decide, by decide, by decide⟩)
            cases hd2 : List.dropWhile isJsonWs r with
            | nil =>
              rw [hd2] at h
              exact elemCase h
            | cons c2 r2 =>
              rw [hd2] at h
              dsimp only at h
              have hsplit2 : r = r.takeWhile isJsonWs ++ c2 :: r2 := by
                conv_lhs => rw [← List.takeWhile_append_dropWhile (p := isJsonWs) (l := r)]
                rw [hd2]
              by_cases hsq : c2 = ']'
              · rw [if_pos hsq] at h
                subst hsq
                injection h with h'
                have hr : rest = r2 := (congrArg Prod.snd h').symm
                subst hr
                refine ⟨cs.takeWhile isJsonWs ++ '[' :: (r.takeWhile isJsonWs ++ [']']), ?_, ?_⟩
                · conv_lhs => rw [hsplit, hsplit2]
                  simp
                · refine scanNeutral_append (scanNeutral_ws cs) ?_
                  refine scanNeutral_all fun x hx => ?_
                  rcases List.mem_cons.1 hx with rfl | hx2
                  · exact ⟨by decide, by decide, by decide, by decide⟩
                  · rcases List.mem_append.1 hx2 with hx3 | hx3
                    · exact wsInert (List.mem_takeWhile_imp hx3)
                    · rcases List.mem_singleton.1 hx3 with rfl
                      exact ⟨by decide, by decide, by decide, by decide⟩
              · rw [if_neg hsq] at h
                exact elemCase h
          · rw [if_neg harr] at h
            by_cases hq : c = quoteC
            · rw [if_pos hq] at h
              subst hq
              cases hs : parseStringBody r with
              | none =>
                rw [hs] at h
                cases h
              | some p =>
                obtain ⟨sv, rest0⟩ := p
                rw [hs] at h
                injection h with h'
                have hr : rest = rest0 := (congrArg Prod.snd h').symm
                subst hr
                rcases parseStringBody_shape r sv rest hs with ⟨xs, hxs, hneut⟩
                refine ⟨cs.takeWhile isJsonWs ++ quoteC :: (xs ++ [quoteC]), ?_, ?_⟩
                · conv_lhs => rw [hsplit, hxs]
                  simp
                · exact scanNeutral_append (scanNeutral_ws cs) (scanNeutral_string hneut)
            · rw [if_neg hq] at h
              by_cases htr : headMatch ['t', 'r', 'u', 'e'] (c :: r) = true
              · rw [if_pos htr] at h
                injection h with h'
                have hr : rest = (c :: r).drop 4 := (congrArg Prod.snd h').symm
                subst hr
                refine ⟨cs.takeWhile isJsonWs ++ ['t', 'r', 'u', 'e'], ?_, ?_⟩
                · conv_lhs => rw [hsplit]
                  conv_lhs => rw [headMatch_decomp htr]
                  simp
                · exact scanNeutral_append (scanNeutral_ws cs)
                    (scanNeutral_all (by decide))
              · rw [if_neg htr] at h
                by_cases hfa : headMatch ['f', 'a', 'l', 's', 'e'] (c :: r) = true
                · rw [if_pos hfa] at h
                  injection h with h'
                  have hr : rest = (c :: r).drop 5 := (congrArg Prod.snd h').symm
                  subst hr
                  refine ⟨cs.takeWhile isJsonWs ++ ['f', 'a', 'l', 's', 'e'], ?_, ?_⟩
                  · conv_lhs => rw [hsplit]
                    conv_lhs => rw [headMatch_decomp hfa]
                    simp
                  · exact scanNeutral_append (scanNeutral_ws cs)
                      (scanNeutral_all (by decide))
                · rw [if_neg hfa] at h
                  by_cases hnu : headMatch ['n', 'u', 'l', 'l'] (c :: r) = true
                  · rw [if_pos hnu] at h
                    injection h with h'
                    have hr : rest = (c :: r).drop 4 := (congrArg Prod.snd h').symm
                    subst hr
                    refine ⟨cs.takeWhile isJsonWs ++ ['n', 'u', 'l', 'l'], ?_, ?_⟩
                    · conv_lhs => rw [hsplit]
                      conv_lhs => rw [headMatch_decomp hnu]
                      simp
                    · exact scanNeutral_append (scanNeutral_ws cs)
                        (scanNeutral_all (by decide))
                  · rw [if_neg hnu] at h
                    unfold parseNumberLex at h
                    by_cases hval : (c :: r).takeWhile numChar ≠ [] ∧
                        validNum ((c :: r).takeWhile numChar) = true
                    · rw [if_pos hval] at h
                      injection h with h'
                      have hr : rest = (c :: r).dropWhile numChar := (congrArg Prod.snd h').symm
                      subst hr
                      refine ⟨cs.takeWhile isJsonWs ++ (c :: r).takeWhile numChar, ?_, ?_⟩
                      · conv_lhs => rw [hsplit]
                        conv_lhs =>
                          rw [show (c :: r : List Char) =
                            (c :: r).takeWhile numChar ++ (c :: r).dropWhile numChar from
                            (List.takeWhile_append_dropWhile (p := numChar) (l := c :: r)).symm]
                        rw [List.append_assoc]
                      · exact scanNeutral_append (scanNeutral_ws cs)
                          (scanNeutral_all fun x hx => numInert (List.mem_takeWhile_imp hx))
                    · rw [if_neg hval] at h
                      cases h
    · -- parseMembers
      intro cs ms rest h
      rw [parseMembers.eq_2] at h
      have hsplit : cs = cs.takeWhile isJsonWs ++ cs.dropWhile isJsonWs :=
        (List.takeWhile_append_dropWhile (p := isJsonWs) (l := cs)).symm
      cases hd : List.dropWhile isJsonWs cs with
      | nil =>
        rw [hd] at h
        cases h
      | cons c r =>
        rw [hd] at h
        dsimp only at h
        rw [hd] at hsplit
        by_cases hq : c = quoteC
        swap
        · rw [if_neg hq] at h
          cases h
        rw [if_pos hq] at h
        subst hq
        cases hs : parseStringBody r with
        | none =>
          rw [hs] at h
          cases h
        | some p =>
          obtain ⟨key0, r2⟩ := p
          rw [hs] at h
          dsimp only at h
          rcases parseStringBody_shape r key0 r2 hs with ⟨xsS, hxsS, hneutS⟩
          cases hd3 : List.dropWhile isJsonWs r2 with
          | nil =>
            rw [hd3] at h
            cases h
          | cons c3 r3 =>
            rw [hd3] at h
            dsimp only at h
            have hsplit3 : r2 = r2.takeWhile isJsonWs ++ c3 :: r3 := by
              conv_lhs => rw [← List.takeWhile_append_dropWhile (p := isJsonWs) (l := r2)]
              rw [hd3]
            by_cases hc3 : c3 = ':'
            swap
            · rw [if_neg hc3] at h
              cases h
            rw [if_pos hc3] at h
            subst hc3
            cases hv : parseValue n r3 with
            | none =>
              rw [hv] at h
              cases h
            | some p2 =>
              obtain ⟨v0, r4⟩ := p2
              rw [hv] at h
              dsimp only at h
              rcases ihV r3 v0 r4 hv with ⟨xsV, hxsV, hneutV⟩
              cases hd5 : List.dropWhile isJsonWs r4 with
              | nil =>
                rw [hd5] at h
                cases h
              | cons c5 r5 =>
                rw [hd5] at h
                dsimp only at h
                have hsplit5 : r4 = r4.takeWhile isJsonWs ++ c5 :: r5 := by
                  conv_lhs => rw [← List.takeWhile_append_dropWhile (p := isJsonWs) (l := r4)]
                  rw [hd5]
                by_cases hcm : c5 = ','
                · rw [if_pos hcm] at h
                  subst hcm
                  cases hmm : parseMembers n r5 with
                  | none =>
                    rw [hmm] at h
                    cases h
                  | some p3 =>
                    obtain ⟨ms3, rest3⟩ := p3
                    rw [hmm] at h
                    dsimp only at h
                    injection h with h'
                    have hr : rest = rest3 := (congrArg Prod.snd h').symm
                    subst hr
                    rcases ihM r5 ms3 rest hmm with ⟨xs5, hxs5, hneut5⟩
                    refine ⟨cs.takeWhile isJsonWs ++ (quoteC :: (xsS ++ [quoteC])) ++
                      r2.takeWhile isJsonWs ++ [':'] ++ xsV ++ r4.takeWhile isJsonWs ++
                      [','] ++ xs5, ?_, ?_⟩
                    · conv_lhs => rw [hsplit, hxsS, hsplit3, hxsV, hsplit5, hxs5]
                      simp
                    · refine scanNeutral_append (scanNeutral_append (scanNeutral_append
                        (scanNeutral_append (scanNeutral_append (scanNeutral_append
                          (scanNeutral_append (scanNeutral_ws cs) ?_)
                          (scanNeutral_ws r2)) ?_) hneutV) (scanNeutral_ws r4)) ?_) hneut5
                      · have e1 : (quoteC :: (xsS ++ [quoteC]) : List Char) =
                            quoteC :: xsS ++ [quoteC] := by simp
                        rw [e1]
                        exact scanNeutral_string hneutS
                      · exact scanNeutral_char ⟨by decide, by decide, by decide, by decide⟩
                      · exact scanNeutral_char ⟨by decide, by decide, by decide, by decide⟩
                · rw [if_neg hcm] at h
                  by_cases hbr : c5 = rbraceC
                  swap
                  · rw [if_neg hbr] at h
                    cases h
                  rw [if_pos hbr] at h
                  subst hbr
                  injection h with h'
                  have hr : rest = r5 := (congrArg Prod.snd h').symm
                  subst hr
                  refine ⟨cs.takeWhile isJsonWs ++ (quoteC :: (xsS ++ [quoteC])) ++
                    r2.takeWhile isJsonWs ++ [':'] ++ xsV ++ r4.takeWhile isJsonWs, ?_, ?_⟩
                  · conv_lhs => rw [hsplit, hxsS, hsplit3, hxsV, hsplit5]
                    simp
                  · refine scanNeutral_append (scanNeutral_append (scanNeutral_append
                      (scanNeutral_append (scanNeutral_append (scanNeutral_ws cs) ?_)
                        (scanNeutral_ws r2)) ?_) hneutV) (scanNeutral_ws r4)
                    · have e1 : (quoteC :: (xsS ++ [quoteC]) : List Char) =
                          quoteC :: xsS ++ [quoteC] := by simp
                      rw [e1]
                      exact scanNeutral_string hneutS
                    · exact scanNeutral_char ⟨by decide, by decide, by decide, by decide⟩
    · -- parseElems
      intro cs vs rest h
      rw [parseElems.eq_2] at h
      cases hv : parseValue n cs with
      | none =>
        rw [hv] at h
        cases h
      | some p =>
        obtain ⟨v0, r⟩ := p
        rw [hv] at h
        dsimp only at h
        rcases ihV cs v0 r hv with ⟨xsV, hxsV, hneutV⟩
        cases hd2 : List.dropWhile isJsonWs r with
        | nil =>
          rw [hd2] at h
          cases h
        | cons c2 r2 =>
          rw [hd2] at h
          dsimp only at h
          have hsplit2 : r = r.takeWhile isJsonWs ++ c2 :: r2 := by
            conv_lhs => rw [← List.takeWhile_append_dropWhile (p := isJsonWs) (l := r)]
            rw [hd2]
          by_cases hcm : c2 = ','
          · rw [if_pos hcm] at h
            subst hcm
            cases he : parseElems n r2 with
            | none =>
              rw [he] at h
              cases h
            | some p2 =>
              obtain ⟨vs2, rest2⟩ := p2
              rw [he] at h
              dsimp only at h
              injection h with h'
              have hr : rest = rest2 := (congrArg Prod.snd h').symm
              subst hr
              rcases ihE r2 vs2 rest he with ⟨xs2, hxs2, hneut2⟩
              refine ⟨xsV ++ r.takeWhile isJsonWs ++ [','] ++ xs2, ?_, ?_⟩
              · conv_lhs => rw [hxsV, hsplit2, hxs2]
                simp
              · exact scanNeutral_append (scanNeutral_append (scanNeutral_append hneutV
                  (scanNeutral_ws r))
                  (scanNeutral_char ⟨by decide, by decide, by decide, by decide⟩)) hneut2
          · rw [if_neg hcm] at h
            by_cases hsq : c2 = ']'
            swap
            · rw [if_neg hsq] at h
              cases h
            rw [if_pos hsq] at h
            subst hsq
            injection h with h'
            have hr : rest = r2 := (congrArg Prod.snd h').symm
            subst hr
            refine ⟨xsV ++ r.takeWhile isJsonWs, ?_, ?_⟩
            · conv_lhs => rw [hxsV, hsplit2]
              simp
            · exact scanNeutral_append hneutV (scanNeutral_ws r)


/-- For a JSON object text parsed exactly, the string-aware brace scan
started after the opening brace stops exactly at the final closing brace. -/
theorem braceScan_of_obj (t body : List Char) (o : List (List Char × Json))
    (hh : t = lbraceC :: body)
    (h : parseValue (t.length + 1) t = some (Json.obj o, [])) :
    braceScan body 1 false false = some body.length := by
  subst hh
  rw [parseValue.eq_2] at h
  rw [List.dropWhile_cons, if_neg (by rw [(by decide : isJsonWs lbraceC = false)]; simp)] at h
  dsimp only at h
  rw [if_pos rfl] at h
  have hclose : braceScan [rbraceC] 1 false false = some 1 := rfl
  cases hd2 : List.dropWhile isJsonWs body with
  | nil =>
    rw [hd2] at h
    cases h
  | cons c2 r2 =>
    rw [hd2] at h
    dsimp only at h
    have hsplit2 : body = body.takeWhile isJsonWs ++ c2 :: r2 := by
      conv_lhs => rw [← List.takeWhile_append_dropWhile (p := isJsonWs) (l := body)]
      rw [hd2]
    by_cases hrb : c2 = rbraceC
    · rw [if_pos hrb] at h
      subst hrb
      injection h with h'
      have hr : r2 = [] := congrArg Prod.snd h'
      subst hr
      rw [hsplit2]
      rw [scanNeutral_ws body [rbraceC] 1 (by omega)]
      rw [hclose]
      simp [List.length_append]
      omega
    · rw [if_neg hrb] at h
      cases hm : parseMembers (lbraceC :: body).length body with
      | none =>
        rw [hm] at h
        cases h
      | some p =>
        obtain ⟨ms0, rest0⟩ := p
        rw [hm] at h
        dsimp only at h
        injection h with h'
        have hr : rest0 = [] := congrArg Prod.snd h'
        subst hr
        rcases (parse_shape (lbraceC :: body).length).2.1 body ms0 [] hm with ⟨xs, hxs, hneut⟩
        rw [hxs]
        have e1 : (xs ++ rbraceC :: ([] : List Char)) = xs ++ [rbraceC] := by simp
        rw [e1, hneut [rbraceC] 1 (by omega), hclose]
        simp [List.length_append]
        omega

/-! ## Lemmas about the searching primitives -/

/-- A pattern matches at the head of itself followed by anything. -/
theorem headMatch_self (pat w : List Char) : headMatch pat (pat ++ w) = true := by
  induction pat with
  | nil => rfl
  | cons p ps ih => simpa [headMatch] using ih

/-- `headMatch` only inspects the first `pat.length` characters. -/
theorem headMatch_append_left {pat a : List Char} (b : List Char)
    (h : pat.length ≤ a.length) : headMatch pat (a ++ b) = headMatch pat a := by
  induction pat generalizing a with
  | nil => rfl
  | cons p ps ih =>
    cases a with
    | nil => simp at h
    | cons c a2 =>
      simp only [List.cons_append, headMatch, List.append_eq]
      rw [ih (by simpa using h)]

/-- One step of `findSub`, as an equation. -/
theorem findSub_step (s pat : List Char) :
    findSub s pat =
      if headMatch pat s then some 0
      else
        match s with
        | [] => none
        | _ :: rest => (findSub rest pat).map (· + 1) := by
  rw [findSub.eq_def]

/-- `findSub` returns the position whose window matches when no earlier
window does. -/
theorem findSub_eq {s pat : List Char} (n : Nat)
    (hm : headMatch pat (s.drop n) = true)
    (hb : ∀ k, k < n → headMatch pat (s.drop k) = false) :
    findSub s pat = some n := by
  induction n generalizing s with
  | zero =>
    rw [findSub_step, if_pos (by simpa using hm)]
  | succ n ih =>
    have h0 : headMatch pat s = false := by simpa using hb 0 (Nat.succ_pos n)
    rw [findSub_step, if_neg (by simp [h0])]
    cases s with
    | nil =>
      rw [List.drop_nil] at hm
      have := hb 0 (Nat.succ_pos n)
      rw [List.drop_nil] at this
      rw [this] at hm
      cases hm
    | cons c rest =>
      have hm2 : headMatch pat (rest.drop n) = true := by
        simpa [List.drop_succ_cons] using hm
      have hb2 : ∀ k, k < n → headMatch pat (rest.drop k) = false := by
        intro k hk
        simpa [List.drop_succ_cons] using hb (k + 1) (by omega)
      show (findSub rest pat).map (· + 1) = some (n + 1)
      rw [ih hm2 hb2]
      rfl

/-- One step of `parenScan`, as an equation. -/
theorem parenScan_cons (c : Char) (rest : List Char) (depth : Nat) :
    parenScan (c :: rest) depth =
      if c = '(' then (parenScan rest (depth + 1)).map (· + 1)
      else if c = ')' then
        if depth = 1 then some 0
        else (parenScan rest (depth - 1)).map (· + 1)
      else (parenScan rest depth).map (· + 1) := rfl

/-- The paren scan over paren-free text finds the closing parenthesis just
after it. -/
theorem parenScan_no_parens {xs : List Char} (w : List Char)
    (h : ∀ c ∈ xs, c ≠ '(' ∧ c ≠ ')') :
    parenScan (xs ++ ')' :: w) 1 = some xs.length := by
  induction xs with
  | nil =>
    rw [List.nil_append, parenScan_cons]
    simp
  | cons c rest ih =>
    have hc := h c (List.mem_cons_self _ _)
    rw [List.cons_append, parenScan_cons, if_neg hc.1, if_neg hc.2,
      ih fun x hx => h x (List.mem_cons_of_mem _ hx)]
    rfl

/-- `takeWhile` over a block wholly satisfying the predicate. -/
theorem takeWhile_append_all {p : Char → Bool} {xs : List Char} (ys : List Char)
    (h : ∀ a ∈ xs, p a = true) :
    (xs ++ ys).takeWhile p = xs ++ ys.takeWhile p := by
  induction xs with
  | nil => rfl
  | cons c rest ih =>
    rw [List.cons_append, List.takeWhile_cons, if_pos (h c (List.mem_cons_self _ _)),
      ih fun a ha => h a (List.mem_cons_of_mem _ ha)]
    rfl

/-- `dropWhile` over a block wholly satisfying the predicate. -/
theorem dropWhile_append_all {p : Char → Bool} {xs : List Char} (ys : List Char)
    (h : ∀ a ∈ xs, p a = true) :
    (xs ++ ys).dropWhile p = ys.dropWhile p := by
  induction xs with
  | nil => rfl
  | cons c rest ih =>
    rw [List.cons_append, List.dropWhile_cons, if_pos (h c (List.mem_cons_self _ _)),
      ih fun a ha => h a (List.mem_cons_of_mem _ ha)]

/-- Consuming a literal from itself followed by anything. -/
theorem dropLit_self (key w : List Char) : dropLit key (key ++ w) = some w := by
  induction key with
  | nil => rfl
  | cons p ps ih => simpa [dropLit] using ih

/-- Case analysis for consuming a literal from an append. -/
theorem dropLit_cases {key zs w r : List Char} (h : dropLit key (zs ++ w) = some r) :
    (∃ zs2, zs = key ++ zs2 ∧ r = zs2 ++ w) ∨
    (∃ kt, kt ≠ [] ∧ key = zs ++ kt ∧ dropLit kt w = some r) := by
  induction key generalizing zs with
  | nil =>
    left
    exact ⟨zs, rfl, by injection h with h'; exact h'.symm⟩
  | cons p ps ih =>
    cases zs with
    | nil =>
      right
      exact ⟨p :: ps, by simp, rfl, h⟩
    | cons c zs2 =>
      rw [List.cons_append] at h
      by_cases hpc : p = c
      · rw [show dropLit (p :: ps) (c :: (zs2 ++ w)) = dropLit ps (zs2 ++ w) from by
          simp [dropLit, hpc]] at h
        rcases ih h with ⟨zs3, hz, hr⟩ | ⟨kt, hne, hk, hd⟩
        · left
          exact ⟨zs3, by rw [hpc, hz]; simp, hr⟩
        · right
          exact ⟨kt, hne, by rw [hpc, hk]; simp, hd⟩
      · rw [show dropLit (p :: ps) (c :: (zs2 ++ w)) = none from by
          simp [dropLit, hpc]] at h
        cases h

/-- The name-key regex at the canonical position captures exactly the name. -/
theorem keyCap_canonical (X w : List Char) (hne : X ≠ [])
    (hq : ∀ c ∈ X, c ≠ quoteC) :
    keyCap ['n', 'a', 'm', 'e']
      ('n' :: 'a' :: 'm' :: 'e' :: '=' :: quoteC :: (X ++ quoteC :: w)) = some X := by
  unfold keyCap
  rw [show ('n' :: 'a' :: 'm' :: 'e' :: '=' :: quoteC :: (X ++ quoteC :: w) : List Char) =
    ['n', 'a', 'm', 'e'] ++ ('=' :: quoteC :: (X ++ quoteC :: w)) from rfl]
  rw [dropLit_self]
  dsimp only
  rw [show List.dropWhile isJsWs ('=' :: quoteC :: (X ++ quoteC :: w)) =
    '=' :: quoteC :: (X ++ quoteC :: w) from by
      rw [List.dropWhile_cons, if_neg (by decide)]]
  dsimp only
  rw [if_pos rfl]
  rw [show List.dropWhile isJsWs (quoteC :: (X ++ quoteC :: w)) =
    quoteC :: (X ++ quoteC :: w) from by
      rw [List.dropWhile_cons, if_neg (by decide)]]
  dsimp only
  rw [if_pos rfl]
  have hall : ∀ a ∈ X, (fun c => decide ¬(c = quoteC)) a = true := by
    intro a ha
    simpa using hq a ha
  have htk : (X ++ quoteC :: w).takeWhile (fun c => decide ¬(c = quoteC)) = X := by
    rw [takeWhile_append_all (quoteC :: w) hall, List.takeWhile_cons,
      if_neg (by simp)]
    simp
  have hdk : (X ++ quoteC :: w).dropWhile (fun c => decide ¬(c = quoteC)) =
      quoteC :: w := by
    rw [dropWhile_append_all (quoteC :: w) hall, List.dropWhile_cons,
      if_neg (by simp)]
  rw [htk, hdk]
  dsimp only
  rw [if_pos ⟨rfl, hne⟩]

/-- Keys of the arguments regex contain no quote and no equals sign. -/
theorem argsKeyOne_none {key zs w : List Char}
    (hkeyq : ∀ c ∈ key, c ≠ quoteC)
    (hzs : ∀ c ∈ zs, c ≠ '=' ∧ c ≠ quoteC)
    (hw : ∃ w2, w = quoteC :: w2) :
    argsKeyOne key (zs ++ w) = none := by
  rcases hw with ⟨w2, rfl⟩
  unfold argsKeyOne
  cases hdl : dropLit key (zs ++ quoteC :: w2) with
  | none => rfl
  | some r =>
    rcases dropLit_cases hdl with ⟨zs2, hz, hr⟩ | ⟨kt, hne, hk, hd⟩
    · subst hr
      dsimp only
      have hzs2 : ∀ c ∈ zs2, c ≠ '=' ∧ c ≠ quoteC := by
        intro c hc
        exact hzs c (by rw [hz]; exact List.mem_append.2 (Or.inr hc))
      rw [List.dropWhile_append]
      by_cases hemp : (zs2.dropWhile isJsWs).isEmpty
      · rw [if_pos hemp]
        rw [List.dropWhile_cons, if_neg (by decide)]
        dsimp only
        rw [if_neg (by decide : ¬quoteC = '=')]
      · rw [if_neg hemp]
        cases hzd : zs2.dropWhile isJsWs with
        | nil => rw [hzd] at hemp; simp at hemp
        | cons d ds =>
          have hd2 : d ∈ zs2 := (List.dropWhile_sublist isJsWs).mem (by rw [hzd]; exact List.mem_cons_self _ _)
          rw [show (d :: ds ++ quoteC :: w2 : List Char) = d :: (ds ++ quoteC :: w2) from by simp]
          dsimp only
          rw [if_neg (hzs2 d hd2).1]
    · cases kt with
      | nil => exact absurd rfl hne
      | cons k kt2 =>
        have hkq : k ≠ quoteC := by
          refine hkeyq k ?_
          rw [hk]
          exact List.mem_append.2 (Or.inr (List.mem_cons_self _ _))
        rw [show dropLit (k :: kt2) (quoteC :: w2) = none from by
          simp [dropLit, hkq]] at hd
        cases hd


/-- The arguments-key regex fails at any position whose window starts inside
text free of equals signs and quotes, followed by a quote. -/
theorem argsKeyAt_none {zs w : List Char}
    (hzs : ∀ c ∈ zs, c ≠ '=' ∧ c ≠ quoteC)
    (hw : ∃ w2, w = quoteC :: w2) :
    argsKeyAt (zs ++ w) = none := by
  unfold argsKeyAt
  rw [argsKeyOne_none (by decide) hzs hw, argsKeyOne_none (by decide) hzs hw]

/-- One step of `argsKeyFind`, as an equation. -/
theorem argsKeyFind_cons (c : Char) (rest : List Char) :
    argsKeyFind (c :: rest) =
      match argsKeyAt (c :: rest) with
      | some m => some m
      | none => argsKeyFind rest := rfl

/-- A failing position is skipped by `argsKeyFind`. -/
theorem argsKeyFind_skip1 {c : Char} {rest : List Char}
    (h : argsKeyAt (c :: rest) = none) :
    argsKeyFind (c :: rest) = argsKeyFind rest := by
  rw [argsKeyFind_cons, h]

/-- A matching position stops `argsKeyFind`. -/
theorem argsKeyFind_hit {c : Char} {rest m : List Char}
    (h : argsKeyAt (c :: rest) = some m) :
    argsKeyFind (c :: rest) = some m := by
  rw [argsKeyFind_cons, h]

/-- `argsKeyFind` skips text free of equals signs and quotes standing
before a quote. -/
theorem argsKeyFind_skip {zs w : List Char}
    (hzs : ∀ c ∈ zs, c ≠ '=' ∧ c ≠ quoteC)
    (hw : ∃ w2, w = quoteC :: w2) :
    argsKeyFind (zs ++ w) = argsKeyFind w := by
  induction zs with
  | nil => rfl
  | cons c zs2 ih =>
    rw [List.cons_append]
    rw [argsKeyFind_skip1 (by
      rw [show (c :: (zs2 ++ w) : List Char) = (c :: zs2) ++ w from by simp]
      exact argsKeyAt_none hzs hw)]
    exact ih fun x hx => hzs x (List.mem_cons_of_mem _ hx)

/-- The arguments-key regex fails wherever the window does not start with
the letter a. -/
theorem argsKeyAt_head_ne {c : Char} (rest : List Char) (h1 : c ≠ 'a') :
    argsKeyAt (c :: rest) = none := by
  unfold argsKeyAt argsKeyOne
  rw [show dropLit ['a', 'r', 'g', 'u', 'm', 'e', 'n', 't', 's'] (c :: rest) = none from by
    simp [dropLit, Ne.symm h1]]
  rw [show dropLit ['a', 'r', 'g', 's'] (c :: rest) = none from by
    simp [dropLit, Ne.symm h1]]

/-- The arguments-key regex fails where the window starts `am`. -/
theorem argsKeyAt_am (rest : List Char) : argsKeyAt ('a' :: 'm' :: rest) = none := by
  unfold argsKeyAt argsKeyOne
  rw [show dropLit ['a', 'r', 'g', 'u', 'm', 'e', 'n', 't', 's'] ('a' :: 'm' :: rest) = none from by
    simp [dropLit]]
  rw [show dropLit ['a', 'r', 'g', 's'] ('a' :: 'm' :: rest) = none from by
    simp [dropLit]]

/-- At the canonical `arguments=` position the regex matches with an empty
whitespace run. -/
theorem argsKeyAt_canonical (t : List Char) :
    argsKeyAt ('a' :: 'r' :: 'g' :: 'u' :: 'm' :: 'e' :: 'n' :: 't' :: 's' :: '=' :: t) =
      some argLit := by
  unfold argsKeyAt argsKeyOne
  rw [show ('a' :: 'r' :: 'g' :: 'u' :: 'm' :: 'e' :: 'n' :: 't' :: 's' :: '=' :: t : List Char) =
    ['a', 'r', 'g', 'u', 'm', 'e', 'n', 't', 's'] ++ ('=' :: t) from rfl]
  rw [dropLit_self]
  dsimp only
  rw [show List.dropWhile isJsWs ('=' :: t) = '=' :: t from by
    rw [List.dropWhile_cons, if_neg (by decide)]]
  dsimp only
  rw [if_pos rfl]
  rw [show List.takeWhile isJsWs ('=' :: t) = [] from by
    rw [List.takeWhile_cons, if_neg (by decide)]]
  rfl

/-- Over the full canonical inside text, the arguments-key regex first
matches at the `arguments=` of the middle literal. -/
theorem argsKeyFind_inside (X t : List Char)
    (hX : ∀ c ∈ X, c ≠ '=' ∧ c ≠ quoteC) :
    argsKeyFind (nameKeyLit ++ X ++ argsMidLit ++ t) = some argLit := by
  have hmid : nameKeyLit ++ X ++ argsMidLit ++ t =
      'n' :: 'a' :: 'm' :: 'e' :: '=' :: quoteC ::
        (X ++ (quoteC :: ',' :: ' ' ::
          ('a' :: 'r' :: 'g' :: 'u' :: 'm' :: 'e' :: 'n' :: 't' :: 's' :: '=' :: t))) := by
    simp [nameKeyLit, argsMidLit]
  rw [hmid]
  rw [argsKeyFind_skip1 (argsKeyAt_head_ne _ (by decide))]
  rw [argsKeyFind_skip1 (argsKeyAt_am _)]
  rw [argsKeyFind_skip1 (argsKeyAt_head_ne _ (by decide))]
  rw [argsKeyFind_skip1 (argsKeyAt_head_ne _ (by decide))]
  rw [argsKeyFind_skip1 (argsKeyAt_head_ne _ (by decide))]
  rw [argsKeyFind_skip1 (argsKeyAt_head_ne _ (by decide))]
  rw [argsKeyFind_skip hX ⟨_, rfl⟩]
  rw [argsKeyFind_skip1 (argsKeyAt_head_ne _ (by decide))]
  rw [argsKeyFind_skip1 (argsKeyAt_head_ne _ (by decide))]
  rw [argsKeyFind_skip1 (argsKeyAt_head_ne _ (by decide))]
  rw [argsKeyFind_hit (argsKeyAt_canonical t)]

/-- One step of `nameCapture`, as an equation. -/
theorem nameCapture_cons (c : Char) (rest : List Char) :
    nameCapture (c :: rest) =
      match nameCapAt (c :: rest) with
      | some cap => some cap
      | none => nameCapture rest := rfl

/-- Over the canonical inside text, the name regex captures the name. -/
theorem nameCapture_inside (X t : List Char) (hne : X ≠ [])
    (hq : ∀ c ∈ X, c ≠ quoteC) :
    nameCapture (nameKeyLit ++ X ++ argsMidLit ++ t) = some X := by
  have hform : nameKeyLit ++ X ++ argsMidLit ++ t =
      'n' :: 'a' :: 'm' :: 'e' :: '=' :: quoteC :: (X ++ quoteC ::
        (',' :: ' ' :: 'a' :: 'r' :: 'g' :: 'u' :: 'm' :: 'e' :: 'n' :: 't' :: 's' :: '=' :: t)) := by
    simp [nameKeyLit, argsMidLit]
  rw [hform, nameCapture_cons]
  rw [show nameCapAt ('n' :: 'a' :: 'm' :: 'e' :: '=' :: quoteC :: (X ++ quoteC ::
      (',' :: ' ' :: 'a' :: 'r' :: 'g' :: 'u' :: 'm' :: 'e' :: 'n' :: 't' :: 's' :: '=' :: t))) =
      some X from by
    unfold nameCapAt
    rw [keyCap_canonical X _ hne hq]]

/-- A successful `headMatch` pins down the first characters. -/
theorem headMatch_getElem {pat s : List Char} (h : headMatch pat s = true) :
    ∀ i, i < pat.length → s[i]? = pat[i]? := by
  induction pat generalizing s with
  | nil =>
    intro i hi
    simp at hi
  | cons p ps ih =>
    cases s with
    | nil => cases h
    | cons c cs =>
      have h2 : p = c ∧ headMatch ps cs = true := by
        simpa [headMatch, Bool.and_eq_true] using h
      intro i hi
      cases i with
      | zero => simp [h2.1]
      | succ j =>
        simpa using ih h2.2 j (by simpa using hi)

/-- The first occurrence of the literal `arguments=` in the canonical
inside text is the one of the middle literal. -/
theorem findSub_inside_argLit (X t : List Char)
    (hX : ∀ c ∈ X, c ≠ '=' ∧ c ≠ quoteC) :
    findSub (nameKeyLit ++ X ++ argsMidLit ++ t) argLit = some (X.length + 9) := by
  have hassoc : nameKeyLit ++ X ++ argsMidLit ++ t =
      (nameKeyLit ++ X ++ [quoteC, ',', ' ']) ++ (argLit ++ t) := by
    simp [nameKeyLit, argsMidLit, argLit]
  have hlen : (nameKeyLit ++ X ++ [quoteC, ',', ' '] : List Char).length = X.length + 9 := by
    simp [nameKeyLit]
  apply findSub_eq
  · rw [hassoc, ← hlen, List.drop_left]
    exact headMatch_self argLit t
  · intro k hk
    cases hmk : headMatch argLit ((nameKeyLit ++ X ++ argsMidLit ++ t).drop k) with
    | false => rfl
    | true =>
      exfalso
      have h9 : ((nameKeyLit ++ X ++ argsMidLit ++ t).drop k)[9]? = argLit[9]? :=
        headMatch_getElem hmk 9 (by decide)
      rw [(by decide : (argLit[9]? : Option Char) = some '=')] at h9
      rw [List.getElem?_drop] at h9
      have hA : (nameKeyLit ++ X ++ argsMidLit ++ t) =
          (nameKeyLit ++ X ++ argsMidLit) ++ t := by simp
      have hAlen : (nameKeyLit ++ X ++ argsMidLit : List Char).length = X.length + 19 := by
        simp [nameKeyLit, argsMidLit]
      have hbound : k + 9 < (nameKeyLit ++ X ++ argsMidLit : List Char).length := by
        rw [hAlen]
        omega
      rw [hA, List.getElem?_append_left hbound] at h9
      have h6 : 6 ≤ k + 9 := by omega
      have hnk : (nameKeyLit : List Char).length = 6 := by decide
      rw [show (nameKeyLit ++ X ++ argsMidLit : List Char) =
        nameKeyLit ++ (X ++ argsMidLit) from by simp] at h9
      rw [List.getElem?_append_right (by omega : (nameKeyLit : List Char).length ≤ k + 9)] at h9
      rw [hnk] at h9
      set j := k + 9 - 6 with hj
      have hjlt : j < X.length + 12 := by omega
      by_cases hjX : j < X.length
      · rw [List.getElem?_append_left hjX] at h9
        have : X.get ⟨j, hjX⟩ ∈ X := List.get_mem _ _ _
        rw [List.getElem?_eq_getElem hjX] at h9
        injection h9 with h9e
        exact (hX _ this).1 h9e
      · rw [List.getElem?_append_right (by omega : X.length ≤ j)] at h9
        have hm2 : j - X.length < 12 := by omega
        have : ∀ m, m < 12 → (argsMidLit[m]? : Option Char) ≠ some '=' := by
          intro m hm
          interval_cases m <;> decide
        exact this (j - X.length) hm2 h9


/-- The first `tool_call(` token in text whose prefix holds no occurrence is
found at the prefix boundary. -/
theorem findSub_toolCall (pre R : List Char)
    (hfirst : ∀ k, k < pre.length → headMatch toolCallLit ((pre ++ toolCallLit).drop k) = false) :
    findSub (pre ++ (toolCallLit ++ R)) toolCallLit = some pre.length := by
  apply findSub_eq
  · rw [List.drop_left]
    exact headMatch_self toolCallLit R
  · intro k hk
    rw [show pre ++ (toolCallLit ++ R) = (pre ++ toolCallLit) ++ R from by simp]
    rw [List.drop_append_of_le_length (by simp; omega)]
    rw [headMatch_append_left R (by simp [toolCallLit]; omega)]
    exact hfirst k hk

/-- The first open parenthesis of the token region sits at offset nine. -/
theorem findSub_openParen (R : List Char) :
    findSub (toolCallLit ++ R) ['('] = some 9 := by
  apply findSub_eq
  · rw [show (toolCallLit ++ R : List Char).drop 9 = '(' :: R from by simp [toolCallLit]]
    simp [headMatch]
  · intro k hk
    interval_cases k <;> simp [toolCallLit, headMatch]

/-- Core correctness of the extractor on the canonical call shape: with the
first token occurrence at the prefix boundary, a quote/equals/paren-free
name and a paren-free exactly-parsed JSON object text, the extractor
returns the name and the parsed object. -/
theorem extractToolCall_core (pre X t post : List Char) (o : List (List Char × Json))
    (hfirst : ∀ k, k < pre.length → headMatch toolCallLit ((pre ++ toolCallLit).drop k) = false)
    (hXne : X ≠ [])
    (hX : ∀ c ∈ X, c ≠ quoteC ∧ c ≠ '=' ∧ c ≠ '(' ∧ c ≠ ')')
    (hthead : ∃ body, t = lbraceC :: body)
    (ht : parseValue (t.length + 1) t = some (Json.obj o, []))
    (htp : ∀ c ∈ t, c ≠ '(' ∧ c ≠ ')') :
    extractToolCall (pre ++ toolCallLit ++ nameKeyLit ++ X ++ argsMidLit ++ t ++ ')' :: post) =
      some ⟨X, Json.obj o⟩ := by
  obtain ⟨body, hbody⟩ := hthead
  have hs : pre ++ toolCallLit ++ nameKeyLit ++ X ++ argsMidLit ++ t ++ ')' :: post =
      pre ++ (toolCallLit ++ ((nameKeyLit ++ X ++ argsMidLit ++ t) ++ ')' :: post)) := by
    simp
  rw [hs]
  unfold extractToolCall
  rw [findSub_toolCall pre _ hfirst]
  dsimp only
  unfold findSubFrom
  rw [List.drop_left]
  rw [findSub_openParen]
  simp only [Option.map_some']
  have hdrop10 : (pre ++ (toolCallLit ++ ((nameKeyLit ++ X ++ argsMidLit ++ t) ++
      ')' :: post))).drop (9 + pre.length + 1) =
      (nameKeyLit ++ X ++ argsMidLit ++ t) ++ ')' :: post := by
    rw [show pre ++ (toolCallLit ++ ((nameKeyLit ++ X ++ argsMidLit ++ t) ++ ')' :: post)) =
      (pre ++ toolCallLit) ++ ((nameKeyLit ++ X ++ argsMidLit ++ t) ++ ')' :: post) from by simp]
    rw [show 9 + pre.length + 1 = (pre ++ toolCallLit : List Char).length from by
      simp only [List.length_append]
      rw [show (toolCallLit : List Char).length = 10 from by decide]
      omega]
    exact List.drop_left _ _
  rw [hdrop10]
  have hinert : ∀ c ∈ nameKeyLit ++ X ++ argsMidLit ++ t, c ≠ '(' ∧ c ≠ ')' := by
    intro c hc
    rcases List.mem_append.1 hc with hc1 | hct
    · rcases List.mem_append.1 hc1 with hc2 | hcm
      · rcases List.mem_append.1 hc2 with hcn | hcx
        · exact (by decide : ∀ x ∈ nameKeyLit, x ≠ '(' ∧ x ≠ ')') c hcn
        · exact ⟨(hX c hcx).2.2.1, (hX c hcx).2.2.2⟩
      · exact (by decide : ∀ x ∈ argsMidLit, x ≠ '(' ∧ x ≠ ')') c hcm
    · exact htp c hct
  rw [parenScan_no_parens _ hinert]
  dsimp only
  rw [List.take_left]
  rw [nameCapture_inside X t hXne fun c hc => (hX c hc).1]
  dsimp only
  rw [argsKeyFind_inside X t fun c hc => ⟨(hX c hc).2.1, (hX c hc).1⟩]
  dsimp only
  rw [findSub_inside_argLit X t fun c hc => ⟨(hX c hc).2.1, (hX c hc).1⟩]
  have hargLen : (argLit : List Char).length = 10 := by decide
  rw [Option.getD_some, hargLen]
  have hdropA : (nameKeyLit ++ X ++ argsMidLit ++ t).drop (X.length + 9 + 10) = t := by
    rw [show nameKeyLit ++ X ++ argsMidLit ++ t =
      (nameKeyLit ++ X ++ argsMidLit) ++ t from by simp]
    rw [show X.length + 9 + 10 = (nameKeyLit ++ X ++ argsMidLit : List Char).length from by
      simp only [List.length_append]
      rw [show (nameKeyLit : List Char).length = 6 from by decide]
      rw [show (argsMidLit : List Char).length = 13 from by decide]
      omega]
    exact List.drop_left _ _
  rw [hdropA]
  rw [show findSub t [lbraceC] = some 0 from by
    rw [findSub_step, if_pos (by rw [hbody]; simp [headMatch])]]
  simp only [Option.map_some']
  have hdropB : (nameKeyLit ++ X ++ argsMidLit ++ t).drop (0 + (X.length + 9 + 10) + 1) = body := by
    rw [show (0 + (X.length + 9 + 10) + 1) = (X.length + 9 + 10) + 1 from by omega]
    rw [show (nameKeyLit ++ X ++ argsMidLit ++ t).drop (X.length + 9 + 10 + 1) =
      ((nameKeyLit ++ X ++ argsMidLit ++ t).drop (X.length + 9 + 10)).drop 1 from by
        rw [List.drop_drop]]
    rw [hdropA, hbody]
    rfl
  rw [hdropB]
  rw [braceScan_of_obj t body o hbody ht]
  dsimp only
  have hdropC : (nameKeyLit ++ X ++ argsMidLit ++ t).drop (0 + (X.length + 9 + 10)) = t := by
    rw [show (0 + (X.length + 9 + 10)) = X.length + 9 + 10 from by omega]
    exact hdropA
  rw [hdropC]
  have htake : t.take (body.length + 1) = t := by
    rw [hbody]
    rw [show body.length + 1 = (lbraceC :: body : List Char).length from by simp]
    exact List.take_length _
  rw [htake]
  rw [show safeJsonParse t = some (Json.obj o) from by
    unfold safeJsonParse jsonParse
    rw [ht]
    simp]


/-- C1 counterexample: an input that contains a valid tool-call substring
(extractable on its own) preceded by a junk `tool_call()` occurrence makes
`extractToolCall` return null, because only the first `tool_call(`
occurrence is tried. -/
theorem extractToolCall_counterexample :
    extractToolCall c1Valid = some ⟨['x'], Json.obj [(['a'], Json.num ['1'])]⟩ ∧
    extractToolCall (c1JunkPre ++ c1Valid) = none :=
  ⟨rfl, rfl⟩

/-- C1 amended: for an input whose first `tool_call(` occurrence starts the
valid call, whose name is nonempty and free of quotes, equals signs and
parentheses, and whose arguments text parses exactly as a JSON object and
contains no parentheses, extraction returns the name with the parsed
object. -/
theorem extractToolCall_valid_call (pre X t post : List Char)
    (o : List (List Char × Json))
    (hfirst : ∀ k, k < pre.length →
      headMatch toolCallLit ((pre ++ toolCallLit).drop k) = false)
    (hXne : X ≠ [])
    (hX : ∀ c ∈ X, c ≠ quoteC ∧ c ≠ '=' ∧ c ≠ '(' ∧ c ≠ ')')
    (hthead : ∃ body, t = lbraceC :: body)
    (ht : parseValue (t.length + 1) t = some (Json.obj o, []))
    (htp : ∀ c ∈ t, c ≠ '(' ∧ c ≠ ')') :
    extractToolCall (pre ++ toolCallLit ++ nameKeyLit ++ X ++ argsMidLit ++ t ++ ')' :: post) =
      some ⟨X, Json.obj o⟩ :=
  extractToolCall_core pre X t post o hfirst hXne hX hthead ht htp

/-- Witness for C1 at the concrete demonstration call. -/
theorem extractToolCall_valid_call_witness :
    extractToolCall (toolCallLit ++ nameKeyLit ++ ['x'] ++ argsMidLit ++ c1Args ++ ')' :: []) =
      some ⟨['x'], Json.obj [(['a'], Json.num ['1'])]⟩ :=
  extractToolCall_valid_call [] ['x'] c1Args [] [(['a'], Json.num ['1'])]
    (fun k hk => absurd hk (Nat.not_lt_zero k)) (by decide) (by decide)
    ⟨[quoteC, 'a', quoteC, ':', '1', rbraceC], rfl⟩ rfl (by decide)

/-- A head match needs at least the pattern's length of input. -/
theorem headMatch_length {pat s : List Char} (h : headMatch pat s = true) :
    pat.length ≤ s.length := by
  induction pat generalizing s with
  | nil => simp
  | cons p ps ih =>
    cases s with
    | nil => simp [headMatch] at h
    | cons c rest =>
      simp only [headMatch, Bool.and_eq_true, decide_eq_true_eq] at h
      simp only [List.length_cons]
      exact Nat.succ_le_succ (ih h.2)

/-- A found occurrence fits inside the searched string. -/
theorem findSub_bound {s pat : List Char} {k : Nat} (h : findSub s pat = some k) :
    k + pat.length ≤ s.length := by
  induction s generalizing k with
  | nil =>
    rw [findSub_step] at h
    by_cases hm : headMatch pat [] = true
    · rw [if_pos hm] at h
      cases h
      simpa using headMatch_length hm
    · rw [if_neg hm] at h
      cases h
  | cons c rest ih =>
    rw [findSub_step] at h
    by_cases hm : headMatch pat (c :: rest) = true
    · rw [if_pos hm] at h
      cases h
      simpa using headMatch_length hm
    · rw [if_neg hm] at h
      dsimp only at h
      cases hr : findSub rest pat with
      | none => rw [hr] at h; cases h
      | some k2 =>
        rw [hr] at h
        simp only [Option.map_some', Option.some.injEq] at h
        have := ih hr
        simp only [List.length_cons]
        omega

/-- Unfolding one fueled iteration of the loop. -/
theorem extractAllGo_succ (fuel : Nat) (s : List Char) :
    extractAllGo (fuel + 1) s = extractAllStep (extractAllGo fuel) s := rfl

/-- One loop iteration only calls its continuation on strictly shorter
suffixes. -/
theorem extractAllStep_congr (r1 r2 : List Char → List MCPToolCall) (response : List Char)
    (h : ∀ x : List Char, x.length < response.length → r1 x = r2 x) :
    extractAllStep r1 response = extractAllStep r2 response := by
  unfold extractAllStep
  cases hk : findSub response toolCallLit with
  | none => rfl
  | some k =>
    have hb := findSub_bound hk
    rw [show (toolCallLit : List Char).length = 10 from by decide] at hb
    dsimp only
    have hshort : ((response.drop k).drop (toolCallLit : List Char).length).length <
        response.length := by
      rw [show (toolCallLit : List Char).length = 10 from by decide]
      simp only [List.length_drop]
      omega
    cases hcall : extractToolCall (response.drop k) with
    | none => dsimp only; exact h _ hshort
    | some call =>
      dsimp only
      cases hop : findSub (response.drop k) ['('] with
      | none => dsimp only; exact h _ hshort
      | some op =>
        dsimp only
        cases hps : parenScan ((response.drop k).drop (op + 1)) 1 with
        | none => dsimp only; exact h _ hshort
        | some endRel =>
          dsimp only
          rw [h ((response.drop k).drop (op + 1 + endRel + 1)) (by
            simp only [List.length_drop]
            omega)]

/-- The loop's value does not depend on the fuel once the fuel exceeds the
input length. -/
theorem extractAllGo_congr (f1 : Nat) : ∀ (f2 : Nat) (s : List Char),
    s.length < f1 → s.length < f2 → extractAllGo f1 s = extractAllGo f2 s := by
  induction f1 with
  | zero => intro f2 s h1 _; omega
  | succ n1 ih =>
    intro f2 s h1 h2
    cases f2 with
    | zero => omega
    | succ n2 =>
      rw [extractAllGo_succ, extractAllGo_succ]
      apply extractAllStep_congr
      intro x hx
      exact ih n2 x (by omega) (by omega)

/-- The interior of a canonical call holds no parentheses. -/
theorem callInside_inert (X t : List Char)
    (hX : ∀ c ∈ X, c ≠ quoteC ∧ c ≠ '=' ∧ c ≠ '(' ∧ c ≠ ')')
    (htp : ∀ c ∈ t, c ≠ '(' ∧ c ≠ ')') :
    ∀ c ∈ nameKeyLit ++ X ++ argsMidLit ++ t, c ≠ '(' ∧ c ≠ ')' := by
  intro c hc
  rcases List.mem_append.1 hc with hc1 | hct
  · rcases List.mem_append.1 hc1 with hc2 | hcm
    · rcases List.mem_append.1 hc2 with hcn | hcx
      · exact (by decide : ∀ x ∈ nameKeyLit, x ≠ '(' ∧ x ≠ ')') c hcn
      · exact ⟨(hX c hcx).2.2.1, (hX c hcx).2.2.2⟩
    · exact (by decide : ∀ x ∈ argsMidLit, x ≠ '(' ∧ x ≠ ')') c hcm
  · exact htp c hct

/-- A fueled iteration on a response starting with a canonical call (and no
earlier token occurrence) emits the call and continues right after its
closing parenthesis. -/
theorem extractAllGo_step_success (fuel : Nat) (pre X t rest : List Char)
    (o : List (List Char × Json))
    (hfirst : ∀ k, k < pre.length → headMatch toolCallLit ((pre ++ toolCallLit).drop k) = false)
    (hXne : X ≠ [])
    (hX : ∀ c ∈ X, c ≠ quoteC ∧ c ≠ '=' ∧ c ≠ '(' ∧ c ≠ ')')
    (hthead : ∃ body, t = lbraceC :: body)
    (ht : parseValue (t.length + 1) t = some (Json.obj o, []))
    (htp : ∀ c ∈ t, c ≠ '(' ∧ c ≠ ')') :
    extractAllGo (fuel + 1)
        (pre ++ toolCallLit ++ nameKeyLit ++ X ++ argsMidLit ++ t ++ ')' :: rest) =
      (⟨X, Json.obj o⟩ : MCPToolCall) :: extractAllGo fuel rest := by
  rw [extractAllGo_succ]
  unfold extractAllStep
  rw [show pre ++ toolCallLit ++ nameKeyLit ++ X ++ argsMidLit ++ t ++ ')' :: rest =
    pre ++ (toolCallLit ++ ((nameKeyLit ++ X ++ argsMidLit ++ t) ++ ')' :: rest)) from by simp]
  rw [findSub_toolCall pre _ hfirst]
  dsimp only
  rw [List.drop_left]
  rw [show extractToolCall (toolCallLit ++ ((nameKeyLit ++ X ++ argsMidLit ++ t) ++ ')' :: rest)) =
      some ⟨X, Json.obj o⟩ from by
    rw [show toolCallLit ++ ((nameKeyLit ++ X ++ argsMidLit ++ t) ++ ')' :: rest) =
      [] ++ toolCallLit ++ nameKeyLit ++ X ++ argsMidLit ++ t ++ ')' :: rest from by simp]
    exact extractToolCall_core [] X t rest o
      (fun k hk => absurd hk (Nat.not_lt_zero k)) hXne hX hthead ht htp]
  dsimp only
  rw [findSub_openParen]
  dsimp only
  rw [show ((toolCallLit ++ ((nameKeyLit ++ X ++ argsMidLit ++ t) ++ ')' :: rest))).drop (9 + 1) =
      (nameKeyLit ++ X ++ argsMidLit ++ t) ++ ')' :: rest from by
    rw [show (9 + 1 : Nat) = (toolCallLit : List Char).length from by decide]
    exact List.drop_left _ _]
  rw [parenScan_no_parens rest (callInside_inert X t hX htp)]
  dsimp only
  rw [show (toolCallLit ++ ((nameKeyLit ++ X ++ argsMidLit ++ t) ++ ')' :: rest)).drop
      (9 + 1 + (nameKeyLit ++ X ++ argsMidLit ++ t).length + 1) = rest from by
    rw [show toolCallLit ++ ((nameKeyLit ++ X ++ argsMidLit ++ t) ++ ')' :: rest) =
      (toolCallLit ++ (nameKeyLit ++ X ++ argsMidLit ++ t) ++ [')']) ++ rest from by simp]
    rw [show 9 + 1 + (nameKeyLit ++ X ++ argsMidLit ++ t).length + 1 =
      (toolCallLit ++ (nameKeyLit ++ X ++ argsMidLit ++ t) ++ [')'] : List Char).length from by
        simp only [List.length_append, List.length_cons, List.length_nil]
        rw [show (toolCallLit : List Char).length = 10 from by decide]]
    exact List.drop_left _ _]

/-- C2 counterexample: both wrapped calls are valid (each extractable on
its own) and consecutive, yet the loop returns only the first: the stray
leading token's extraction succeeds by capturing the first call's name and
arguments from inside the stray parentheses, and the scan then resumes past
the stray closing parenthesis, beyond the second call. -/
theorem extractAllToolCalls_counterexample :
    extractToolCall (c2Call 'x') = some ⟨['x'], Json.obj [(['a'], Json.num ['1'])]⟩ ∧
    extractToolCall (c2Call 'y') = some ⟨['y'], Json.obj [(['a'], Json.num ['1'])]⟩ ∧
    extractAllToolCalls c2Wrapped = [⟨['x'], Json.obj [(['a'], Json.num ['1'])]⟩] :=
  ⟨rfl, rfl, rfl⟩

/-- C2 amended: a response holding two consecutive canonical calls (with no token
occurrence before the first, between, or after the second beyond the calls
themselves) yields exactly the two calls, in left-to-right order, each with
its own parsed arguments. -/
theorem extractAllToolCalls_two (pre X1 t1 mid X2 t2 post : List Char)
    (o1 o2 : List (List Char × Json))
    (hfirst1 : ∀ k, k < pre.length →
      headMatch toolCallLit ((pre ++ toolCallLit).drop k) = false)
    (hX1ne : X1 ≠ [])
    (hX1 : ∀ c ∈ X1, c ≠ quoteC ∧ c ≠ '=' ∧ c ≠ '(' ∧ c ≠ ')')
    (ht1head : ∃ body, t1 = lbraceC :: body)
    (ht1 : parseValue (t1.length + 1) t1 = some (Json.obj o1, []))
    (ht1p : ∀ c ∈ t1, c ≠ '(' ∧ c ≠ ')')
    (hfirst2 : ∀ k, k < mid.length →
      headMatch toolCallLit ((mid ++ toolCallLit).drop k) = false)
    (hX2ne : X2 ≠ [])
    (hX2 : ∀ c ∈ X2, c ≠ quoteC ∧ c ≠ '=' ∧ c ≠ '(' ∧ c ≠ ')')
    (ht2head : ∃ body, t2 = lbraceC :: body)
    (ht2 : parseValue (t2.length + 1) t2 = some (Json.obj o2, []))
    (ht2p : ∀ c ∈ t2, c ≠ '(' ∧ c ≠ ')')
    (hpost : findSub post toolCallLit = none) :
    extractAllToolCalls (pre ++ toolCallLit ++ nameKeyLit ++ X1 ++ argsMidLit ++ t1 ++ ')' ::
        (mid ++ toolCallLit ++ nameKeyLit ++ X2 ++ argsMidLit ++ t2 ++ ')' :: post)) =
      [⟨X1, Json.obj o1⟩, ⟨X2, Json.obj o2⟩] := by
  unfold extractAllToolCalls
  rw [extractAllGo_step_success _ pre X1 t1 _ o1 hfirst1 hX1ne hX1 ht1head ht1 ht1p]
  rw [extractAllGo_congr _
    ((mid ++ toolCallLit ++ nameKeyLit ++ X2 ++ argsMidLit ++ t2 ++ ')' :: post).length + 1)
    (mid ++ toolCallLit ++ nameKeyLit ++ X2 ++ argsMidLit ++ t2 ++ ')' :: post)
    (by simp only [List.length_append, List.length_cons]; omega)
    (by omega)]
  rw [extractAllGo_step_success _ mid X2 t2 _ o2 hfirst2 hX2ne hX2 ht2head ht2 ht2p]
  rw [extractAllGo_congr _ (post.length + 1) post
    (by simp only [List.length_append, List.length_cons]; omega)
    (by omega)]
  rw [extractAllGo_succ]
  unfold extractAllStep
  rw [hpost]

/-- Witness for C2 at two concrete consecutive calls. -/
theorem extractAllToolCalls_two_witness :
    extractAllToolCalls ([] ++ toolCallLit ++ nameKeyLit ++ ['x'] ++ argsMidLit ++ c1Args ++ ')' ::
        ([' '] ++ toolCallLit ++ nameKeyLit ++ ['y'] ++ argsMidLit ++ c1Args ++ ')' :: [])) =
      [⟨['x'], Json.obj [(['a'], Json.num ['1'])]⟩,
        ⟨['y'], Json.obj [(['a'], Json.num ['1'])]⟩] :=
  extractAllToolCalls_two [] ['x'] c1Args [' '] ['y'] c1Args []
    [(['a'], Json.num ['1'])] [(['a'], Json.num ['1'])]
    (fun k hk => absurd hk (Nat.not_lt_zero k)) (by decide) (by decide)
    ⟨[quoteC, 'a', quoteC, ':', '1', rbraceC], rfl⟩ rfl (by decide)
    (by decide) (by decide) (by decide)
    ⟨[quoteC, 'a', quoteC, ':', '1', rbraceC], rfl⟩ rfl (by decide)
    rfl

/-- A block's accumulated text does not depend on the incoming channel or
metadata state. -/
theorem runSegs_btext (ps : List (List Char)) : ∀ (active : List Char)
    (chans meta chans2 meta2 : List (List Char × List Char)) (btext : List Char),
    (runSegs ps active chans meta btext).btext =
      (runSegs ps active chans2 meta2 btext).btext := by
  induction ps with
  | nil => intro _ _ _ _ _ _; rfl
  | cons piece rest ih =>
    intro active chans meta chans2 meta2 btext
    simp only [runSegs]
    cases parseSeg piece with
    | none => exact ih ..
    | some tv =>
      obtain ⟨tag, value⟩ := tv
      dsimp only
      split_ifs
      · exact ih ..
      · exact ih ..
      · rfl
      · exact ih ..
      · exact ih ..

/-- The block walk's remembered text is the last non-empty block text. -/
theorem runBlocks_last (bs : List (List Char)) : ∀ (chans meta : List (List Char × List Char))
    (last : Option (List Char)),
    (runBlocks bs chans meta last).last =
      match ((bs.map blockTextOf).filter (fun t => !t.isEmpty)).getLast? with
      | some t => some t
      | none => last := by
  induction bs with
  | nil => intro chans meta last; rfl
  | cons b rest ih =>
    intro chans meta last
    simp only [runBlocks]
    have hb : (runSegs (segsOf b) [] chans meta []).btext = blockTextOf b :=
      runSegs_btext ..
    rw [hb]
    cases hE : (blockTextOf b).isEmpty with
    | true =>
      have hred : (if (true = true) then last else some (blockTextOf b)) = last := rfl
      rw [hred, ih, List.map_cons, List.filter_cons_of_neg (by simp [hE])]
    | false =>
      have hred : (if (false = true) then last else some (blockTextOf b)) =
          some (blockTextOf b) := rfl
      rw [hred, ih, List.map_cons, List.filter_cons_of_pos (by simp [hE])]
      cases hf : (List.filter (fun t => !t.isEmpty) (rest.map blockTextOf)) with
      | nil => rfl
      | cons c cs =>
        rw [List.getLast?_cons_cons]
        obtain ⟨x, hx⟩ := Option.isSome_iff_exists.1
          ((List.getLast?_isSome (l := c :: cs)).2 (by simp))
        rw [hx]

/-- C7: the parse's content is the text of the last block that produced
non-empty text, and the raw input when no block produced any. -/
theorem harmonyParse_content (raw : List Char) :
    (harmonyParse raw).content =
      match (((blocksOf raw).map blockTextOf).filter (fun t => !t.isEmpty)).getLast? with
      | some t => t
      | none => raw := by
  show (transcriptOut raw).last.getD raw = _
  rw [transcriptOut, runBlocks_last]
  cases hX : (((blocksOf raw).map blockTextOf).filter (fun t => !t.isEmpty)).getLast? with
  | none => rfl
  | some t => rfl

/-- `findSub` misses when no window matches. -/
theorem findSub_none {s pat : List Char} (h : ∀ k, headMatch pat (s.drop k) = false) :
    findSub s pat = none := by
  induction s with
  | nil =>
    rw [findSub_step, if_neg (by simpa using h 0)]
  | cons c rest ih =>
    rw [findSub_step, if_neg (by simpa using h 0)]
    dsimp only
    rw [ih fun k => by simpa [List.drop_succ_cons] using h (k + 1)]
    rfl

/-- When `findSub` misses, no window matches. -/
theorem findSub_all_false {s pat : List Char} (h : findSub s pat = none) :
    ∀ k, headMatch pat (s.drop k) = false := by
  induction s with
  | nil =>
    intro k
    rw [List.drop_nil]
    rw [findSub_step] at h
    by_cases hm : headMatch pat [] = true
    · rw [if_pos hm] at h; cases h
    · simpa using hm
  | cons c rest ih =>
    intro k
    rw [findSub_step] at h
    by_cases hm : headMatch pat (c :: rest) = true
    · rw [if_pos hm] at h; cases h
    · rw [if_neg hm] at h
      dsimp only at h
      have hrest : findSub rest pat = none := by
        cases hr : findSub rest pat with
        | none => rfl
        | some m => rw [hr] at h; cases h
      cases k with
      | zero => simpa using hm
      | succ k2 =>
        rw [List.drop_succ_cons]
        exact ih hrest k2

/-- A known matching window makes `findSub` hit somewhere. -/
theorem findSub_isSome {s pat : List Char} (n : Nat)
    (h : headMatch pat (s.drop n) = true) : (findSub s pat).isSome = true := by
  cases hf : findSub s pat with
  | some k => rfl
  | none => rw [findSub_all_false hf n] at h; cases h

/-- `findSub` skips a block free of the pattern's first character. -/
theorem findSub_append_headfree {p : Char} (ps : List Char) {u : List Char} (rest : List Char)
    (h : ∀ c ∈ u, c ≠ p) :
    findSub (u ++ rest) (p :: ps) = (findSub rest (p :: ps)).map (· + u.length) := by
  induction u with
  | nil =>
    simp only [List.nil_append, List.length_nil]
    cases findSub rest (p :: ps) <;> simp
  | cons c u2 ih =>
    have hm : ¬headMatch (p :: ps) (c :: (u2 ++ rest)) = true := by
      simp only [headMatch, Bool.and_eq_true, decide_eq_true_eq]
      intro hx
      exact h c (List.mem_cons_self _ _) hx.1.symm
    rw [List.cons_append, findSub_step, if_neg hm]
    dsimp only
    rw [ih fun x hx => h x (List.mem_cons_of_mem _ hx)]
    cases findSub rest (p :: ps) with
    | none => rfl
    | some m => simp [Nat.add_assoc]

/-- `findSub` misses entirely in a block free of the pattern's first
character. -/
theorem findSub_headfree_none {p : Char} (ps : List Char) {s : List Char}
    (h : ∀ c ∈ s, c ≠ p) : findSub s (p :: ps) = none := by
  have h2 := findSub_append_headfree ps ([] : List Char) h
  rw [List.append_nil] at h2
  rw [h2]
  rfl

/-- Unfolding one fueled step of the splitter. -/
theorem splitOnSub_succ (fuel : Nat) (s pat : List Char) :
    splitOnSub (fuel + 1) s pat =
      match findSub s pat with
      | none => [s]
      | some k => s.take k :: splitOnSub fuel (s.drop (k + pat.length)) pat := rfl

/-- Splitting on an absent pattern keeps the string whole. -/
theorem splitOnSub_absent {fuel : Nat} {s pat : List Char} (h : findSub s pat = none) :
    splitOnSub fuel s pat = [s] := by
  cases fuel with
  | zero => rfl
  | succ f => rw [splitOnSub_succ, h]

/-- The splitter's value does not depend on the fuel once it exceeds the
input length. -/
theorem splitOnSub_congr (pat : List Char) (hpat : pat ≠ []) (f1 : Nat) :
    ∀ (f2 : Nat) (s : List Char), s.length < f1 → s.length < f2 →
      splitOnSub f1 s pat = splitOnSub f2 s pat := by
  induction f1 with
  | zero => intro f2 s h1 _; omega
  | succ n1 ih =>
    intro f2 s h1 h2
    cases f2 with
    | zero => omega
    | succ n2 =>
      rw [splitOnSub_succ, splitOnSub_succ]
      cases hk : findSub s pat with
      | none => rfl
      | some k =>
        dsimp only
        have hb := findSub_bound hk
        have hplen : 0 < pat.length := List.length_pos.2 hpat
        rw [ih n2 (s.drop (k + pat.length)) (by simp only [List.length_drop]; omega)
          (by simp only [List.length_drop]; omega)]

/-- One canonical-fuel step of the splitter at a found occurrence. -/
theorem splitOnSub_canon {s pat : List Char} {k : Nat} (hpat : pat ≠ [])
    (hk : findSub s pat = some k) :
    splitOnSub (s.length + 1) s pat =
      s.take k :: splitOnSub ((s.drop (k + pat.length)).length + 1)
        (s.drop (k + pat.length)) pat := by
  rw [splitOnSub_succ, hk]
  dsimp only
  have hb := findSub_bound hk
  have hplen : 0 < pat.length := List.length_pos.2 hpat
  rw [splitOnSub_congr pat hpat s.length ((s.drop (k + pat.length)).length + 1)
    (s.drop (k + pat.length)) (by simp only [List.length_drop]; omega) (by omega)]

/-- A bounded check suffices for `LtPipe`. -/
theorem ltPipe_bounded {s : List Char}
    (h : ∀ k, k < s.length → (s[k]? = some '<' → s[k + 1]? = some '|')) :
    LtPipe s := by
  intro k hk
  by_cases hlt : k < s.length
  · exact h k hlt hk
  · rw [List.getElem?_eq_none (by omega)] at hk; cases hk

/-- `LtPipe` composes over append. -/
theorem ltPipe_append {u v : List Char} (hu : LtPipe u) (hv : LtPipe v) :
    LtPipe (u ++ v) := by
  intro k hk
  by_cases hlt : k < u.length
  · rw [List.getElem?_append_left hlt] at hk
    have h2 := hu k hk
    have h2lt : k + 1 < u.length := by
      by_contra hge
      rw [List.getElem?_eq_none (by omega)] at h2
      cases h2
    rw [List.getElem?_append_left h2lt]
    exact h2
  · rw [List.getElem?_append_right (by omega)] at hk
    have h2 := hv _ hk
    rw [List.getElem?_append_right (by omega),
      show k + 1 - u.length = k - u.length + 1 from by omega]
    exact h2

/-- A text without `<` is trivially `LtPipe`. -/
theorem ltPipe_of_no_lt {s : List Char} (h : ∀ c ∈ s, c ≠ '<') : LtPipe s := by
  intro k hk
  exact absurd rfl (h _ (List.getElem?_mem hk))

/-- A bounded check suffices for `LtOk`. -/
theorem ltOk_bounded {s : List Char}
    (h : ∀ k, k < s.length → (s[k]? = some '<' →
      k + 2 < s.length ∧ s[k + 1]? = some '|' ∧ s[k + 2]? ≠ some 's')) :
    LtOk s := by
  intro k hk
  by_cases hlt : k < s.length
  · exact h k hlt hk
  · rw [List.getElem?_eq_none (by omega)] at hk; cases hk

/-- `LtOk` composes over append. -/
theorem ltOk_append {u v : List Char} (hu : LtOk u) (hv : LtOk v) :
    LtOk (u ++ v) := by
  intro k hk
  by_cases hlt : k < u.length
  · rw [List.getElem?_append_left hlt] at hk
    obtain ⟨hl, h1, h2⟩ := hu k hk
    refine ⟨by simp only [List.length_append]; omega, ?_, ?_⟩
    · rw [List.getElem?_append_left (by omega)]
      exact h1
    · rw [List.getElem?_append_left (by omega)]
      exact h2
  · rw [List.getElem?_append_right (by omega)] at hk
    obtain ⟨hl, h1, h2⟩ := hv _ hk
    refine ⟨by simp only [List.length_append]; omega, ?_, ?_⟩
    · rw [List.getElem?_append_right (by omega),
        show k + 1 - u.length = k - u.length + 1 from by omega]
      exact h1
    · rw [List.getElem?_append_right (by omega),
        show k + 2 - u.length = k - u.length + 2 from by omega]
      exact h2

/-- A text without `<` is trivially `LtOk`. -/
theorem ltOk_of_no_lt {s : List Char} (h : ∀ c ∈ s, c ≠ '<') : LtOk s := by
  intro k hk
  exact absurd rfl (h _ (List.getElem?_mem hk))

/-- No start-marker window can match inside an `LtOk` text, even one
followed by more text. -/
theorem headMatch_startTok_mid {u X : List Char} (hu : LtOk u) {k : Nat}
    (hk : k < u.length) : headMatch startTok ((u ++ X).drop k) = false := by
  by_contra htrue
  rw [Bool.not_eq_false] at htrue
  have h0 := (headMatch_getElem htrue 0 (by decide)).trans
    (show (startTok[0]? : Option Char) = some '<' from rfl)
  have h2 := (headMatch_getElem htrue 2 (by decide)).trans
    (show (startTok[2]? : Option Char) = some 's' from rfl)
  rw [List.getElem?_drop] at h0 h2
  simp only [Nat.add_zero] at h0
  rw [List.getElem?_append_left hk] at h0
  obtain ⟨hlen, _, hne⟩ := hu k h0
  rw [List.getElem?_append_left hlen] at h2
  exact hne h2

/-- No start-marker window at all inside an `LtOk` text. -/
theorem headMatch_startTok_false {w : List Char} (hw : LtOk w) (k : Nat) :
    headMatch startTok (w.drop k) = false := by
  by_contra htrue
  rw [Bool.not_eq_false] at htrue
  have h0 := (headMatch_getElem htrue 0 (by decide)).trans
    (show (startTok[0]? : Option Char) = some '<' from rfl)
  have h2 := (headMatch_getElem htrue 2 (by decide)).trans
    (show (startTok[2]? : Option Char) = some 's' from rfl)
  rw [List.getElem?_drop] at h0 h2
  simp only [Nat.add_zero] at h0
  obtain ⟨hlen, _, hne⟩ := hw k h0
  exact hne h2

/-- The start marker is first found right after an `LtOk` block. -/
theorem findSub_startTok_after (u R : List Char) (hu : LtOk u) :
    findSub (u ++ (startTok ++ R)) startTok = some u.length := by
  apply findSub_eq
  · rw [List.drop_left]
    exact headMatch_self _ _
  · intro k hk
    exact headMatch_startTok_mid hu hk

/-- The start marker misses in an `LtOk` text. -/
theorem findSub_startTok_none {w : List Char} (hw : LtOk w) :
    findSub w startTok = none :=
  findSub_none (headMatch_startTok_false hw)

/-- The reasoning-wrapper opener misses in an `LtPipe` text. -/
theorem findSub_thinkOpen_none {s : List Char} (h : LtPipe s) :
    findSub s thinkOpenTok = none := by
  apply findSub_none
  intro k
  by_contra htrue
  rw [Bool.not_eq_false] at htrue
  have h0 := (headMatch_getElem htrue 0 (by decide)).trans
    (show (thinkOpenTok[0]? : Option Char) = some '<' from rfl)
  have h1 := (headMatch_getElem htrue 1 (by decide)).trans
    (show (thinkOpenTok[1]? : Option Char) = some 't' from rfl)
  rw [List.getElem?_drop] at h0 h1
  simp only [Nat.add_zero] at h0
  have h2 := h k h0
  rw [h1] at h2
  cases h2

/-- `dropWhile` keeps a list none of whose members satisfy the test. -/
theorem dropWhile_eq_self_of {p : Char → Bool} {l : List Char}
    (h : ∀ c ∈ l, p c = false) : l.dropWhile p = l := by
  cases l with
  | nil => rfl
  | cons c rest =>
    rw [List.dropWhile_cons, if_neg (by simp [h c (List.mem_cons_self _ _)])]

/-- Trimming a whitespace-free text is the identity. -/
theorem trim_eq_self {l : List Char} (h : ∀ c ∈ l, isJsWs c = false) : trim l = l := by
  unfold trim
  rw [dropWhile_eq_self_of h,
    dropWhile_eq_self_of fun c hc => h c (List.mem_reverse.1 hc),
    List.reverse_reverse]

/-- Reading a canonical `tag|>value` segment. -/
theorem parseSeg_canon (tag v : List Char) (htag : ∀ c ∈ tag, c ≠ '|') :
    parseSeg (tag ++ tagCloseTok ++ v) = some (tag, v) := by
  unfold parseSeg
  have hfind : findSub (tag ++ tagCloseTok ++ v) tagCloseTok = some tag.length := by
    rw [show tag ++ tagCloseTok ++ v = tag ++ ('|' :: ('>' :: v)) from by simp [tagCloseTok]]
    rw [show (tagCloseTok : List Char) = '|' :: ['>'] from rfl]
    rw [findSub_append_headfree _ _ htag]
    rw [findSub_step, if_pos (by exact headMatch_self ('|' :: ['>']) v)]
    simp
  rw [hfind]
  dsimp only
  have htake : (tag ++ tagCloseTok ++ v).take tag.length = tag := by
    rw [show tag ++ tagCloseTok ++ v = tag ++ (tagCloseTok ++ v) from by simp]
    exact List.take_left _ _
  have hdrop : (tag ++ tagCloseTok ++ v).drop (tag.length + tagCloseTok.length) = v := by
    rw [show tag ++ tagCloseTok ++ v = (tag ++ tagCloseTok) ++ v from by simp]
    rw [show tag.length + tagCloseTok.length = (tag ++ tagCloseTok : List Char).length from by
      simp]
    exact List.drop_left _ _
  rw [htake, hdrop]

/-- The tag opener is first found right after a `<`-free block. -/
theorem findSub_tagOpen (u R : List Char) (hu : ∀ c ∈ u, c ≠ '<') :
    findSub (u ++ (tagOpenTok ++ R)) tagOpenTok = some u.length := by
  rw [show (tagOpenTok : List Char) = '<' :: ['|'] from rfl]
  rw [findSub_append_headfree _ _ hu]
  rw [findSub_step, if_pos (by exact headMatch_self ('<' :: ['|']) R)]
  simp

/-- One canonical split step on the tag opener after a `<`-free block. -/
theorem splitOnSub_tag_step (u R : List Char) (hu : ∀ c ∈ u, c ≠ '<') :
    splitOnSub ((u ++ (tagOpenTok ++ R)).length + 1) (u ++ (tagOpenTok ++ R)) tagOpenTok =
      u :: splitOnSub (R.length + 1) R tagOpenTok := by
  rw [splitOnSub_canon (by decide) (findSub_tagOpen u R hu)]
  have htake : (u ++ (tagOpenTok ++ R)).take u.length = u := List.take_left _ _
  have hdrop : (u ++ (tagOpenTok ++ R)).drop (u.length + tagOpenTok.length) = R := by
    rw [show u ++ (tagOpenTok ++ R) = (u ++ tagOpenTok) ++ R from by simp]
    rw [show u.length + tagOpenTok.length = (u ++ tagOpenTok : List Char).length from by simp]
    exact List.drop_left _ _
  rw [htake, hdrop]

/-- The splitter leaves a `<`-free block whole. -/
theorem splitOnSub_tag_last (u : List Char) (fuel : Nat) (hu : ∀ c ∈ u, c ≠ '<') :
    splitOnSub fuel u tagOpenTok = [u] := by
  apply splitOnSub_absent
  rw [show (tagOpenTok : List Char) = '<' :: ['|'] from rfl]
  exact findSub_headfree_none _ hu

/-- The segments of a canonical one-channel block. -/
theorem segsOf_chanBlock (cname v : List Char)
    (hc : ∀ c ∈ cname, c ≠ '<') (hv : ∀ c ∈ v, c ≠ '<') :
    segsOf (chanBlock cname v) =
      [channelTag ++ tagCloseTok ++ cname,
       messageTag ++ tagCloseTok ++ v,
       endTagName ++ tagCloseTok] := by
  have hP1 : ∀ c ∈ channelTag ++ tagCloseTok ++ cname, c ≠ '<' := by
    intro c hm
    rcases List.mem_append.1 hm with h1 | h2
    · rcases List.mem_append.1 h1 with ha | hb2
      · exact (by decide : ∀ x ∈ channelTag, x ≠ '<') c ha
      · exact (by decide : ∀ x ∈ tagCloseTok, x ≠ '<') c hb2
    · exact hc c h2
  have hP2 : ∀ c ∈ messageTag ++ tagCloseTok ++ v, c ≠ '<' := by
    intro c hm
    rcases List.mem_append.1 hm with h1 | h2
    · rcases List.mem_append.1 h1 with ha | hb2
      · exact (by decide : ∀ x ∈ messageTag, x ≠ '<') c ha
      · exact (by decide : ∀ x ∈ tagCloseTok, x ≠ '<') c hb2
    · exact hv c h2
  have hshape : chanBlock cname v =
      assistantTag ++ (tagOpenTok ++ ((channelTag ++ tagCloseTok ++ cname) ++
        (tagOpenTok ++ ((messageTag ++ tagCloseTok ++ v) ++
          (tagOpenTok ++ (endTagName ++ tagCloseTok)))))) := by
    simp [chanBlock, endTok, tagOpenTok, tagCloseTok, endTagName]
  unfold segsOf
  rw [hshape]
  rw [splitOnSub_tag_step assistantTag _ (by decide)]
  rw [splitOnSub_tag_step (channelTag ++ tagCloseTok ++ cname) _ hP1]
  rw [splitOnSub_tag_step (messageTag ++ tagCloseTok ++ v) _ hP2]
  rw [splitOnSub_tag_last (endTagName ++ tagCloseTok) _ (by decide)]
  rfl

/-- The start marker is `LtPipe`. -/
theorem ltPipe_startTok : LtPipe startTok := by
  apply ltPipe_bounded
  decide

/-- A canonical block with `<`-free channel name and value is `LtPipe`. -/
theorem ltPipe_chanBlock (cname v : List Char)
    (hc : ∀ c ∈ cname, c ≠ '<') (hv : ∀ c ∈ v, c ≠ '<') :
    LtPipe (chanBlock cname v) := by
  have hshape : chanBlock cname v =
      (assistantTag ++ tagOpenTok ++ channelTag ++ tagCloseTok) ++
        (cname ++ ((tagOpenTok ++ messageTag ++ tagCloseTok) ++ (v ++ endTok))) := by
    simp [chanBlock]
  rw [hshape]
  refine ltPipe_append (by apply ltPipe_bounded; decide) ?_
  refine ltPipe_append (ltPipe_of_no_lt hc) ?_
  refine ltPipe_append (by apply ltPipe_bounded; decide) ?_
  exact ltPipe_append (ltPipe_of_no_lt hv) (by apply ltPipe_bounded; decide)

/-- A canonical block with `<`-free channel name and value is `LtOk`. -/
theorem ltOk_chanBlock (cname v : List Char)
    (hc : ∀ c ∈ cname, c ≠ '<') (hv : ∀ c ∈ v, c ≠ '<') :
    LtOk (chanBlock cname v) := by
  have hshape : chanBlock cname v =
      (assistantTag ++ tagOpenTok ++ channelTag ++ tagCloseTok) ++
        (cname ++ ((tagOpenTok ++ messageTag ++ tagCloseTok) ++ (v ++ endTok))) := by
    simp [chanBlock]
  rw [hshape]
  refine ltOk_append (by apply ltOk_bounded; decide) ?_
  refine ltOk_append (ltOk_of_no_lt hc) ?_
  refine ltOk_append (by apply ltOk_bounded; decide) ?_
  exact ltOk_append (ltOk_of_no_lt hv) (by apply ltOk_bounded; decide)

/-- The canonical two-block transcript is `LtPipe`, so it holds no
reasoning-wrapper tag. -/
theorem ltPipe_thinkFinal (a b : List Char)
    (ha : ∀ c ∈ a, c ≠ '<') (hb : ∀ c ∈ b, c ≠ '<') :
    LtPipe (thinkFinalRaw a b) := by
  have hshape : thinkFinalRaw a b =
      startTok ++ (chanBlock thinkName a ++ (startTok ++ chanBlock finalTag b)) := by
    simp [thinkFinalRaw]
  rw [hshape]
  exact ltPipe_append ltPipe_startTok
    (ltPipe_append (ltPipe_chanBlock thinkName a (by decide) ha)
      (ltPipe_append ltPipe_startTok (ltPipe_chanBlock finalTag b (by decide) hb)))

/-- The blocks of the canonical two-block transcript. -/
theorem blocksOf_thinkFinal (a b : List Char)
    (ha : ∀ c ∈ a, c ≠ '<') (hb : ∀ c ∈ b, c ≠ '<') :
    blocksOf (thinkFinalRaw a b) =
      [chanBlock thinkName a, chanBlock finalTag b] := by
  have hOk1 : LtOk (chanBlock thinkName a) := ltOk_chanBlock thinkName a (by decide) ha
  have hOk2 : LtOk (chanBlock finalTag b) := ltOk_chanBlock finalTag b (by decide) hb
  have hshape : thinkFinalRaw a b =
      startTok ++ (chanBlock thinkName a ++ (startTok ++ chanBlock finalTag b)) := by
    simp [thinkFinalRaw]
  have hstart : findSub (thinkFinalRaw a b) startTok = some 0 := by
    rw [hshape, findSub_step, if_pos (headMatch_self startTok _)]
  have hend1 : (findSub (chanBlock thinkName a) endTok).isSome = true := by
    apply findSub_isSome ((assistantTag ++ tagOpenTok ++ channelTag ++ tagCloseTok ++
      thinkName ++ tagOpenTok ++ messageTag ++ tagCloseTok ++ a).length)
    rw [show chanBlock thinkName a =
      (assistantTag ++ tagOpenTok ++ channelTag ++ tagCloseTok ++ thinkName ++
        tagOpenTok ++ messageTag ++ tagCloseTok ++ a) ++ (endTok ++ []) from by
        simp [chanBlock]]
    rw [List.drop_left]
    exact headMatch_self endTok []
  have hend2 : (findSub (chanBlock finalTag b) endTok).isSome = true := by
    apply findSub_isSome ((assistantTag ++ tagOpenTok ++ channelTag ++ tagCloseTok ++
      finalTag ++ tagOpenTok ++ messageTag ++ tagCloseTok ++ b).length)
    rw [show chanBlock finalTag b =
      (assistantTag ++ tagOpenTok ++ channelTag ++ tagCloseTok ++ finalTag ++
        tagOpenTok ++ messageTag ++ tagCloseTok ++ b) ++ (endTok ++ []) from by
        simp [chanBlock]]
    rw [List.drop_left]
    exact headMatch_self endTok []
  have hendRaw : (findSub (thinkFinalRaw a b) endTok).isSome = true := by
    apply findSub_isSome ((startTok ++ assistantTag ++ tagOpenTok ++ channelTag ++
      tagCloseTok ++ thinkName ++ tagOpenTok ++ messageTag ++ tagCloseTok ++ a).length)
    rw [show thinkFinalRaw a b =
      (startTok ++ assistantTag ++ tagOpenTok ++ channelTag ++ tagCloseTok ++ thinkName ++
        tagOpenTok ++ messageTag ++ tagCloseTok ++ a) ++
        (endTok ++ (startTok ++ chanBlock finalTag b)) from by
        simp [thinkFinalRaw, chanBlock]]
    rw [List.drop_left]
    exact headMatch_self endTok _
  unfold blocksOf
  rw [if_pos ⟨by rw [hstart]; rfl, hendRaw⟩]
  rw [splitOnSub_canon (by decide) hstart]
  have hdrop0 : (thinkFinalRaw a b).drop (0 + startTok.length) =
      chanBlock thinkName a ++ (startTok ++ chanBlock finalTag b) := by
    rw [hshape, show (0 + startTok.length : Nat) = startTok.length from by omega]
    exact List.drop_left _ _
  rw [hdrop0, List.take_zero]
  rw [splitOnSub_canon (by decide) (findSub_startTok_after _ _ hOk1)]
  have hdrop1 : (chanBlock thinkName a ++ (startTok ++ chanBlock finalTag b)).drop
      ((chanBlock thinkName a).length + startTok.length) = chanBlock finalTag b := by
    rw [show chanBlock thinkName a ++ (startTok ++ chanBlock finalTag b) =
      (chanBlock thinkName a ++ startTok) ++ chanBlock finalTag b from by simp]
    rw [show (chanBlock thinkName a).length + startTok.length =
      (chanBlock thinkName a ++ startTok : List Char).length from by simp]
    exact List.drop_left _ _
  rw [hdrop1, List.take_left]
  rw [splitOnSub_absent (findSub_startTok_none hOk2)]
  simp only [List.drop_succ_cons, List.drop_zero]
  rw [List.filter_cons_of_pos (by simpa using hend1)]
  rw [List.filter_cons_of_pos (by simpa using hend2)]
  rw [List.filter_nil]

/-- Walking the three canonical segments of a one-channel block. -/
theorem runSegs_canonSegs (cname v active btext : List Char)
    (chans meta : List (List Char × List Char)) :
    runSegs [channelTag ++ tagCloseTok ++ cname, messageTag ++ tagCloseTok ++ v,
        endTagName ++ tagCloseTok] active chans meta btext =
      ⟨joinSp btext (trim v),
        chanApp (chanReg chans (trim cname)) (trim cname) (trim v), meta⟩ := by
  have h1 := parseSeg_canon channelTag cname (by decide)
  have h2 := parseSeg_canon messageTag v (by decide)
  have h3 : parseSeg (endTagName ++ tagCloseTok) = some (endTagName, []) := by
    rw [show endTagName ++ tagCloseTok = endTagName ++ tagCloseTok ++ [] from by simp]
    exact parseSeg_canon endTagName [] (by decide)
  have e1 := eq_false (by decide : ¬(messageTag = channelTag))
  have e2 := eq_true (Or.inl rfl : messageTag = messageTag ∨ messageTag = finalTag)
  have e3 := eq_false (by decide : ¬(endTagName = channelTag))
  have e4 := eq_false (by decide : ¬(endTagName = messageTag ∨ endTagName = finalTag))
  have e5 := eq_true (rfl : channelTag = channelTag)
  have e6 := eq_true (rfl : endTagName = endTagName)
  simp only [runSegs, h1, h2, h3, e1, e2, e3, e4, e5, e6, true_or, false_or, if_true,
    if_false]

/-- The wrapper extractor reads the wrapped text. -/
theorem wrapperReasoning_wrap (c rest : List Char)
    (hc : ∀ x ∈ c, x ≠ '<') (hcw : ∀ x ∈ c, isJsWs x = false) :
    wrapperReasoning (wrapReasoningRaw c rest) = some c := by
  unfold wrapperReasoning wrapReasoningRaw
  have h0 : findSub (thinkOpenTok ++ c ++ thinkCloseTok ++ rest) thinkOpenTok = some 0 := by
    rw [show thinkOpenTok ++ c ++ thinkCloseTok ++ rest =
      thinkOpenTok ++ (c ++ (thinkCloseTok ++ rest)) from by simp]
    rw [findSub_step, if_pos (headMatch_self thinkOpenTok _)]
  rw [h0]
  dsimp only
  have hdrop : (thinkOpenTok ++ c ++ thinkCloseTok ++ rest).drop (0 + thinkOpenTok.length) =
      c ++ (thinkCloseTok ++ rest) := by
    rw [show thinkOpenTok ++ c ++ thinkCloseTok ++ rest =
      thinkOpenTok ++ (c ++ (thinkCloseTok ++ rest)) from by simp]
    rw [show (0 + thinkOpenTok.length : Nat) = thinkOpenTok.length from by omega]
    exact List.drop_left _ _
  rw [hdrop]
  have hclose : findSub (c ++ (thinkCloseTok ++ rest)) thinkCloseTok = some c.length := by
    rw [show (thinkCloseTok : List Char) =
      '<' :: ['/', 't', 'h', 'i', 'n', 'k', 'i', 'n', 'g', '>'] from rfl]
    rw [findSub_append_headfree _ _ hc]
    rw [findSub_step, if_pos (headMatch_self _ _)]
    simp
  rw [hclose]
  dsimp only
  rw [List.take_left, trim_eq_self hcw]

/-- C8: reasoning priority: for the canonical think-then-final transcript,
reasoning is the think channel's text and content the final block's text;
and an explicit reasoning wrapper, when present, wins over the transcript
channels. -/
theorem harmonyParse_reasoning (a b c : List Char)
    (hane : a ≠ []) (hbne : b ≠ [])
    (ha : ∀ x ∈ a, x ≠ '<' ∧ isJsWs x = false)
    (hb : ∀ x ∈ b, x ≠ '<' ∧ isJsWs x = false)
    (hc : ∀ x ∈ c, x ≠ '<' ∧ isJsWs x = false) :
    (harmonyParse (thinkFinalRaw a b)).reasoning = some a ∧
    (harmonyParse (thinkFinalRaw a b)).content = b ∧
    (harmonyParse (wrapReasoningRaw c (thinkFinalRaw a b))).reasoning = some c := by
  have ha1 : ∀ x ∈ a, x ≠ '<' := fun x hx => (ha x hx).1
  have hb1 : ∀ x ∈ b, x ≠ '<' := fun x hx => (hb x hx).1
  have htrima : trim a = a := trim_eq_self fun x hx => (ha x hx).2
  have htrimb : trim b = b := trim_eq_self fun x hx => (hb x hx).2
  have haE : a.isEmpty = false := by
    cases a with
    | nil => exact absurd rfl hane
    | cons x r => rfl
  have hbE : b.isEmpty = false := by
    cases b with
    | nil => exact absurd rfl hbne
    | cons x r => rfl
  have hr1 : runSegs (segsOf (chanBlock thinkName a)) [] [] [] [] =
      ⟨a, [(thinkName, a)], []⟩ := by
    rw [segsOf_chanBlock thinkName a (by decide) ha1, runSegs_canonSegs, htrima,
      show trim thinkName = thinkName from rfl]
    rfl
  have hr2 : runSegs (segsOf (chanBlock finalTag b)) [] [(thinkName, a)] [] [] =
      ⟨b, [(thinkName, a), (finalTag, b)], []⟩ := by
    rw [segsOf_chanBlock finalTag b (by decide) hb1, runSegs_canonSegs, htrimb,
      show trim finalTag = finalTag from rfl]
    rfl
  have htrans : transcriptOut (thinkFinalRaw a b) =
      ⟨some b, [(thinkName, a), (finalTag, b)], []⟩ := by
    rw [transcriptOut, blocksOf_thinkFinal a b ha1 hb1]
    simp only [runBlocks]
    rw [hr1]
    dsimp only
    rw [haE]
    have hred1 : (if (false = true) then (none : Option (List Char)) else some a) =
        some a := rfl
    rw [hred1, hr2]
    dsimp only
    rw [hbE]
    have hred2 : (if (false = true) then some a else some b) = some b := rfl
    rw [hred2]
  have hwrap : wrapperReasoning (thinkFinalRaw a b) = none := by
    unfold wrapperReasoning
    rw [findSub_thinkOpen_none (ltPipe_thinkFinal a b ha1 hb1)]
  refine ⟨?_, ?_, ?_⟩
  · have hshape : (harmonyParse (thinkFinalRaw a b)).reasoning =
        match wrapperReasoning (thinkFinalRaw a b) with
        | some r => some r
        | none =>
          match chanGet (transcriptOut (thinkFinalRaw a b)).chans thinkName with
          | some v => some v
          | none => chanGet (transcriptOut (thinkFinalRaw a b)).chans reasoningName := rfl
    rw [hshape, hwrap, htrans]
    rfl
  · have hshape : (harmonyParse (thinkFinalRaw a b)).content =
        (transcriptOut (thinkFinalRaw a b)).last.getD (thinkFinalRaw a b) := rfl
    rw [hshape, htrans]
    rfl
  · have hshape : (harmonyParse (wrapReasoningRaw c (thinkFinalRaw a b))).reasoning =
        match wrapperReasoning (wrapReasoningRaw c (thinkFinalRaw a b)) with
        | some r => some r
        | none =>
          match chanGet (transcriptOut (wrapReasoningRaw c (thinkFinalRaw a b))).chans
              thinkName with
          | some v => some v
          | none =>
            chanGet (transcriptOut (wrapReasoningRaw c (thinkFinalRaw a b))).chans
              reasoningName := rfl
    rw [hshape,
      wrapperReasoning_wrap c _ (fun x hx => (hc x hx).1) (fun x hx => (hc x hx).2)]

/-- Witness for C8 at a concrete transcript and wrapper. -/
theorem harmonyParse_reasoning_witness :
    (harmonyParse (thinkFinalRaw ['D', 'e', 'e', 'p'] ['H', 'i', '!'])).reasoning =
        some ['D', 'e', 'e', 'p'] ∧
    (harmonyParse (thinkFinalRaw ['D', 'e', 'e', 'p'] ['H', 'i', '!'])).content =
        ['H', 'i', '!'] ∧
    (harmonyParse (wrapReasoningRaw ['w', 'h', 'y']
        (thinkFinalRaw ['D', 'e', 'e', 'p'] ['H', 'i', '!']))).reasoning =
        some ['w', 'h', 'y'] :=
  harmonyParse_reasoning ['D', 'e', 'e', 'p'] ['H', 'i', '!'] ['w', 'h', 'y']
    (by decide) (by decide) (by decide) (by decide) (by decide)

end Snippet
